import Mathlib

/-!
Verification of the MOAB storage-kernel specification against the code in
`src/`.  Pure fragments of `Core.cpp`, `SweptElementSeq.cpp` and `MBCN.cpp`
are embedded as Lean functions; collaborating components whose sources are
not in the repository snapshot (MBRange.cpp, TagServer.cpp,
SequenceManager.cpp, MBInternals.hpp) are modelled from the specification
text, and each such definition is marked `Modelled from the spec`.
-/

set_option maxHeartbeats 1000000

namespace Moab

/-- Error kinds used by the storage kernel (subset of MBTypes.h used by the
embedded code paths). -/
inductive ErrorCode where
  | MB_SUCCESS
  | MB_FAILURE
  | MB_ENTITY_NOT_FOUND
  | MB_TYPE_OUT_OF_RANGE
  | MB_ALREADY_ALLOCATED
  | MB_TAG_NOT_FOUND
  | MB_VARIABLE_DATA_LENGTH
  | MB_NOT_IMPLEMENTED
  deriving DecidableEq, Repr

/-- The closed entity-type enumeration (MBEntityType), in declaration order;
`MBMAXTYPE` is the sentinel that is not a real type. -/
inductive EntityType where
  | MBVERTEX
  | MBEDGE
  | MBTRI
  | MBQUAD
  | MBPOLYGON
  | MBTET
  | MBPYRAMID
  | MBPRISM
  | MBKNIFE
  | MBHEX
  | MBPOLYHEDRON
  | MBENTITYSET
  | MBMAXTYPE
  deriving DecidableEq, Repr

/-- Numeric value of an entity type (its position in the enumeration). -/
def typeNum : EntityType → Nat
  | .MBVERTEX => 0
  | .MBEDGE => 1
  | .MBTRI => 2
  | .MBQUAD => 3
  | .MBPOLYGON => 4
  | .MBTET => 5
  | .MBPYRAMID => 6
  | .MBPRISM => 7
  | .MBKNIFE => 8
  | .MBHEX => 9
  | .MBPOLYHEDRON => 10
  | .MBENTITYSET => 11
  | .MBMAXTYPE => 12

/-- Inverse of `typeNum`; values outside the enumeration map to the sentinel
`MBMAXTYPE`. -/
def typeOfNum (n : Nat) : EntityType :=
  match n with
  | 0 => .MBVERTEX
  | 1 => .MBEDGE
  | 2 => .MBTRI
  | 3 => .MBQUAD
  | 4 => .MBPOLYGON
  | 5 => .MBTET
  | 6 => .MBPYRAMID
  | 7 => .MBPRISM
  | 8 => .MBKNIFE
  | 9 => .MBHEX
  | 10 => .MBPOLYHEDRON
  | 11 => .MBENTITYSET
  | _ => .MBMAXTYPE

/- Entity handles are fixed-width unsigned integers; they are modelled as
`Nat` with explicit bounds where the bit layout matters. -/

/-- Modelled from the spec (§3 Handle, §4.1): the number of bits of a handle
reserved for the local id.  `MBInternals.hpp`, which fixes the widths, is not
in the repository snapshot; the spec only requires a fixed partition of the
handle word into a type field and an id field.  We use a 32-bit handle with a
4-bit type field, hence 28 id bits. -/
def MB_ID_WIDTH : Nat := 28

/-- Largest local id representable in the id bit-field. -/
def MB_END_ID : Nat := 2 ^ MB_ID_WIDTH - 1

/-- Modelled from the spec (§4.1 `make_handle`): builds a handle from a type
and a local id; fails (returns `none`, the invalid-handle outcome) when the id
exceeds the id bit-width or the type is outside the closed enumeration.
Pure, no side effects. -/
def CREATE_HANDLE (type : EntityType) (id : Nat) : Option Nat :=
  if type ≠ EntityType.MBMAXTYPE ∧ id ≤ MB_END_ID then
    some (typeNum type * 2 ^ MB_ID_WIDTH + id)
  else
    none

/-- Modelled from the spec (§4.1 `type_of`): the type bit-field of a handle. -/
def TYPE_FROM_HANDLE (h : Nat) : EntityType :=
  typeOfNum (h / 2 ^ MB_ID_WIDTH)

/-- Modelled from the spec (§4.1 `id_of`): the id bit-field of a handle. -/
def ID_FROM_HANDLE (h : Nat) : Nat :=
  h % 2 ^ MB_ID_WIDTH

theorem typeOfNum_typeNum (t : EntityType) : typeOfNum (typeNum t) = t := by
  cases t <;> rfl

theorem end_id_lt_pow : MB_END_ID < 2 ^ MB_ID_WIDTH := by
  norm_num [MB_END_ID, MB_ID_WIDTH]

theorem TYPE_FROM_HANDLE_create {t : EntityType} {id : Nat} {h : Nat}
    (hc : CREATE_HANDLE t id = some h) : TYPE_FROM_HANDLE h = t := by
  unfold CREATE_HANDLE at hc
  split at hc
  · rename_i hcond
    have hh : h = typeNum t * 2 ^ MB_ID_WIDTH + id := (Option.some_inj.mp hc).symm
    subst hh
    unfold TYPE_FROM_HANDLE
    have hid : id < 2 ^ MB_ID_WIDTH := lt_of_le_of_lt hcond.2 end_id_lt_pow
    have hq : (typeNum t * 2 ^ MB_ID_WIDTH + id) / 2 ^ MB_ID_WIDTH = typeNum t := by
      rw [mul_comm, Nat.mul_add_div (by norm_num [MB_ID_WIDTH]), Nat.div_eq_of_lt hid]
      omega
    rw [hq, typeOfNum_typeNum]
  · exact absurd hc (by simp)

theorem ID_FROM_HANDLE_create {t : EntityType} {id : Nat} {h : Nat}
    (hc : CREATE_HANDLE t id = some h) : ID_FROM_HANDLE h = id := by
  unfold CREATE_HANDLE at hc
  split at hc
  · rename_i hcond
    have hh : h = typeNum t * 2 ^ MB_ID_WIDTH + id := (Option.some_inj.mp hc).symm
    subst hh
    unfold ID_FROM_HANDLE
    have hid : id < 2 ^ MB_ID_WIDTH := lt_of_le_of_lt hcond.2 end_id_lt_pow
    rw [mul_comm, Nat.mul_add_mod, Nat.mod_eq_of_lt hid]
  · exact absurd hc (by simp)

/-- C4: for every `(type, id)` with `type` inside the enumeration and `id`
within the id bit-width, the handle built by the constructor decodes back to
the same type and id; the constructor is a pure function and returns the
invalid outcome when `id` exceeds the bit-width or `type` is the sentinel
outside the enumeration. -/
theorem handle_round_trip (t : EntityType) (id : Nat)
    (ht : t ≠ EntityType.MBMAXTYPE) (hid : id ≤ MB_END_ID) :
    (∃ h, CREATE_HANDLE t id = some h ∧
      TYPE_FROM_HANDLE h = t ∧ ID_FROM_HANDLE h = id)
    ∧ (∀ id2, MB_END_ID < id2 → CREATE_HANDLE t id2 = none)
    ∧ (∀ id3, CREATE_HANDLE EntityType.MBMAXTYPE id3 = none) := by
  have hc : CREATE_HANDLE t id = some (typeNum t * 2 ^ MB_ID_WIDTH + id) := by
    unfold CREATE_HANDLE
    simp [ht, hid]
  refine ⟨⟨typeNum t * 2 ^ MB_ID_WIDTH + id, hc,
    TYPE_FROM_HANDLE_create hc, ID_FROM_HANDLE_create hc⟩, ?_, ?_⟩
  · intro id2 h2
    unfold CREATE_HANDLE
    simp only [ite_eq_right_iff]
    intro hcond
    omega
  · intro id3
    unfold CREATE_HANDLE
    simp

/-- Witness for C4 at a concrete input: type `MBHEX`, id 5. -/
theorem handle_round_trip_witness :
    (EntityType.MBHEX ≠ EntityType.MBMAXTYPE ∧ (5 : Nat) ≤ MB_END_ID)
    ∧ (∃ h, CREATE_HANDLE EntityType.MBHEX 5 = some h ∧
        TYPE_FROM_HANDLE h = EntityType.MBHEX ∧ ID_FROM_HANDLE h = 5) := by
  refine ⟨⟨by decide, by decide⟩, ?_⟩
  exact (handle_round_trip EntityType.MBHEX 5 (by decide) (by decide)).1

/-!
§4.2 Range.  Modelled from the spec: `MBRange.cpp` is not in the repository
snapshot; the spec describes a Range as "an ordered sequence of disjoint,
non-adjacent `[start,end]` integer-handle intervals, kept merged (adjacent or
overlapping intervals coalesced) and sorted ascending".
-/

/-- A Range is its list of closed intervals `(first, second)`. -/
abbrev RangeList := List (Nat × Nat)

/-- The Range representation invariant: every interval is non-empty
(`first ≤ second`) and consecutive intervals are separated by a gap of at
least one handle (`second + 2 ≤ next.first`): sorted, disjoint and
non-adjacent. -/
def rangeWF (l : RangeList) : Prop :=
  (∀ p ∈ l, p.1 ≤ p.2) ∧ List.Chain' (fun p q : Nat × Nat => p.2 + 2 ≤ q.1) l

instance (l : RangeList) : Decidable (rangeWF l) := by
  unfold rangeWF
  exact instDecidableAnd

/-- The set of handles a Range denotes. -/
def rangeToFinset (l : RangeList) : Finset Nat :=
  l.foldr (fun p s => Finset.Icc p.1 p.2 ∪ s) ∅

theorem rangeToFinset_nil : rangeToFinset [] = ∅ := rfl

theorem rangeToFinset_cons (p : Nat × Nat) (l : RangeList) :
    rangeToFinset (p :: l) = Finset.Icc p.1 p.2 ∪ rangeToFinset l := rfl

/-- `Range::size()`: the sum of the interval lengths. -/
def rangeSize (l : RangeList) : Nat :=
  (l.map (fun p => p.2 + 1 - p.1)).sum

/-- Modelled from the spec (§4.2): after a single-handle insertion touches the
front interval, coalesce it with the following interval when they overlap or
are adjacent. -/
def mergeHead (p : Nat × Nat) : RangeList → RangeList
  | [] => [p]
  | q :: rest => if q.1 ≤ p.2 + 1 then (p.1, max p.2 q.2) :: rest else p :: q :: rest

/-- Modelled from the spec (§4.2 `insert(h)`): insert a single handle,
merging with an existing interval when the value is inside it or adjacent to
one of its boundaries. -/
def rangeInsert (h : Nat) : RangeList → RangeList
  | [] => [(h, h)]
  | p :: rest =>
    if h + 1 < p.1 then (h, h) :: p :: rest
    else if h ≤ p.2 + 1 then mergeHead (min p.1 h, max p.2 h) rest
    else p :: rangeInsert h rest

/-- Modelled from the spec (§4.2 `erase(h)`): remove a single handle,
shrinking the interval containing it, or splitting it in two when the handle
is interior. -/
def rangeErase (h : Nat) : RangeList → RangeList
  | [] => []
  | p :: rest =>
    if h < p.1 then p :: rest
    else if p.2 < h then p :: rangeErase h rest
    else if p.1 = p.2 then rest
    else if h = p.1 then (p.1 + 1, p.2) :: rest
    else if h = p.2 then (p.1, p.2 - 1) :: rest
    else (p.1, h - 1) :: (h + 1, p.2) :: rest

theorem rangeWF_tail {p : Nat × Nat} {l : RangeList} (hwf : rangeWF (p :: l)) :
    rangeWF l :=
  ⟨fun q hq => hwf.1 q (List.mem_cons_of_mem p hq), hwf.2.tail⟩

/-- Under the invariant, every handle in the tail of a Range lies strictly
beyond the head interval, with the canonical gap. -/
theorem mem_rest_lb : ∀ {l : RangeList} {p : Nat × Nat} {x : Nat},
    rangeWF (p :: l) → x ∈ rangeToFinset l → p.2 + 2 ≤ x := by
  intro l
  induction l with
  | nil =>
    intro p x _ hx
    simp [rangeToFinset] at hx
  | cons q rest ih =>
    intro p x hwf hx
    rw [rangeToFinset_cons] at hx
    have hq12 : q.1 ≤ q.2 := hwf.1 q (by simp)
    have hpq : p.2 + 2 ≤ q.1 := (List.chain'_cons.mp hwf.2).1
    rcases Finset.mem_union.mp hx with hx1 | hx2
    · have := Finset.mem_Icc.mp hx1
      omega
    · have hwf' : rangeWF (q :: rest) := rangeWF_tail hwf
      have := ih hwf' hx2
      omega

theorem mem_mergeHead {p q : Nat × Nat} : ∀ {l : RangeList},
    q ∈ mergeHead p l → q.1 = p.1 ∨ q ∈ l := by
  intro l
  cases l with
  | nil =>
    intro hq
    simp [mergeHead] at hq
    left
    rw [hq]
  | cons r rest =>
    intro hq
    simp only [mergeHead] at hq
    split at hq
    · rcases List.mem_cons.mp hq with h1 | h2
      · left; rw [h1]
      · right; exact List.mem_cons_of_mem r h2
    · rcases List.mem_cons.mp hq with h1 | h2
      · left; rw [h1]
      · right; exact h2

theorem rangeInsert_mem_lb {c h : Nat} : ∀ {l : RangeList},
    (∀ q ∈ l, c ≤ q.1) → c ≤ h → ∀ q ∈ rangeInsert h l, c ≤ q.1 := by
  intro l
  induction l with
  | nil =>
    intro _ hch q hq
    simp [rangeInsert] at hq
    rw [hq]
    exact hch
  | cons p rest ih =>
    intro hl hch q hq
    simp only [rangeInsert] at hq
    split at hq
    · rcases List.mem_cons.mp hq with h1 | h2
      · rw [h1]; exact hch
      · exact hl q h2
    · split at hq
      · rcases mem_mergeHead hq with h1 | h2
        · rw [h1]
          simp only [le_min_iff]
          exact ⟨hl p (by simp), hch⟩
        · exact hl q (List.mem_cons_of_mem p h2)
      · rcases List.mem_cons.mp hq with h1 | h2
        · rw [h1]; exact hl p (by simp)
        · exact ih (fun r hr => hl r (List.mem_cons_of_mem p hr)) hch q h2

theorem rangeErase_mem_lb {c h : Nat} : ∀ {l : RangeList},
    (∀ q ∈ l, c ≤ q.1) → ∀ q ∈ rangeErase h l, c ≤ q.1 := by
  intro l
  induction l with
  | nil =>
    intro _ q hq
    simp [rangeErase] at hq
  | cons p rest ih =>
    intro hl q hq
    have hp : c ≤ p.1 := hl p (by simp)
    have hrest : ∀ r ∈ rest, c ≤ r.1 := fun r hr => hl r (List.mem_cons_of_mem p hr)
    simp only [rangeErase] at hq
    split at hq
    · exact hl q hq
    · rename_i hge
      split at hq
      · rcases List.mem_cons.mp hq with h1 | h2
        · rw [h1]; exact hp
        · exact ih hrest q h2
      · split at hq
        · exact hrest q hq
        · split at hq
          · rcases List.mem_cons.mp hq with h1 | h2
            · rw [h1]
              show c ≤ p.1 + 1
              omega
            · exact hrest q h2
          · split at hq
            · rcases List.mem_cons.mp hq with h1 | h2
              · rw [h1]; exact hp
              · exact hrest q h2
            · rcases List.mem_cons.mp hq with h1 | h2
              · rw [h1]; exact hp
              · rcases List.mem_cons.mp h2 with h3 | h4
                · rw [h3]
                  show c ≤ h + 1
                  omega
                · exact hrest q h4

theorem subset_rangeToFinset {s : Nat × Nat} : ∀ {l : RangeList}, s ∈ l →
    ∀ x, s.1 ≤ x → x ≤ s.2 → x ∈ rangeToFinset l := by
  intro l
  induction l with
  | nil =>
    intro hs
    simp at hs
  | cons p rest ih =>
    intro hs x h1 h2
    rw [rangeToFinset_cons]
    rcases List.mem_cons.mp hs with he | hm
    · subst he
      exact Finset.mem_union_left _ (Finset.mem_Icc.mpr ⟨h1, h2⟩)
    · exact Finset.mem_union_right _ (ih hm x h1 h2)

/-- Under the invariant, every interval in the tail starts strictly beyond
the head interval, with the canonical gap. -/
theorem rest_start_lb {p : Nat × Nat} {rest : RangeList} (hwf : rangeWF (p :: rest)) :
    ∀ s ∈ rest, p.2 + 2 ≤ s.1 := by
  intro s hs
  have hs12 : s.1 ≤ s.2 := (rangeWF_tail hwf).1 s hs
  exact mem_rest_lb hwf (subset_rangeToFinset hs s.1 le_rfl hs12)

theorem rangeInsert_toFinset : ∀ {l : RangeList} (h : Nat), rangeWF l →
    rangeToFinset (rangeInsert h l) = insert h (rangeToFinset l) := by
  intro l
  induction l with
  | nil =>
    intro h _
    simp [rangeInsert, rangeToFinset]
  | cons p rest ih =>
    intro h hwf
    have hp12 : p.1 ≤ p.2 := hwf.1 p (by simp)
    have hlb : ∀ y ∈ rangeToFinset rest, p.2 + 2 ≤ y := fun y hy => mem_rest_lb hwf hy
    simp only [rangeInsert]
    split
    · rename_i hlt
      ext x
      by_cases hxr : x ∈ rangeToFinset rest <;> simp [rangeToFinset_cons, hxr] <;> omega
    · rename_i hge
      split
      · rename_i hle
        cases rest with
        | nil =>
          simp only [mergeHead]
          ext x
          simp [rangeToFinset_cons, rangeToFinset_nil]
          omega
        | cons q rest2 =>
          have hq12 : q.1 ≤ q.2 := hwf.1 q (by simp)
          have hchain : p.2 + 2 ≤ q.1 := (List.chain'_cons.mp hwf.2).1
          simp only [mergeHead]
          split
          · rename_i hm
            ext x
            by_cases hxr : x ∈ rangeToFinset rest2
            · simp [rangeToFinset_cons, hxr]
            · simp [rangeToFinset_cons, hxr]
              omega
          · rename_i hm
            ext x
            by_cases hxr : x ∈ rangeToFinset rest2
            · simp [rangeToFinset_cons, hxr]
            · simp [rangeToFinset_cons, hxr]
              omega
      · rename_i hgt
        rw [rangeToFinset_cons, rangeToFinset_cons, ih h (rangeWF_tail hwf),
          Finset.union_insert]

theorem rangeInsert_wf : ∀ {l : RangeList} (h : Nat), rangeWF l →
    rangeWF (rangeInsert h l) := by
  intro l
  induction l with
  | nil =>
    intro h _
    refine ⟨?_, by simp [rangeInsert]⟩
    intro p hp
    simp [rangeInsert] at hp
    rw [hp]
  | cons p rest ih =>
    intro h hwf
    have hp12 : p.1 ≤ p.2 := hwf.1 p (by simp)
    simp only [rangeInsert]
    split
    · rename_i hlt
      refine ⟨?_, List.chain'_cons.mpr ⟨?_, hwf.2⟩⟩
      · intro q hq
        rcases List.mem_cons.mp hq with h1 | h2
        · rw [h1]
        · exact hwf.1 q h2
      · show h + 2 ≤ p.1
        omega
    · rename_i hge
      split
      · rename_i hle
        cases rest with
        | nil =>
          simp only [mergeHead]
          refine ⟨?_, by simp⟩
          intro q hq
          simp at hq
          rw [hq]
          show min p.1 h ≤ max p.2 h
          omega
        | cons q rest2 =>
          have hq12 : q.1 ≤ q.2 := hwf.1 q (by simp)
          have hchain : p.2 + 2 ≤ q.1 := (List.chain'_cons.mp hwf.2).1
          have hwfq : rangeWF (q :: rest2) := rangeWF_tail hwf
          simp only [mergeHead]
          split
          · rename_i hm
            rcases List.chain'_cons'.mp hwfq.2 with ⟨hhead, hch2⟩
            refine ⟨?_, List.chain'_cons'.mpr ⟨?_, hch2⟩⟩
            · intro r hr
              rcases List.mem_cons.mp hr with h1 | h2
              · rw [h1]
                show min p.1 h ≤ max (max p.2 h) q.2
                omega
              · exact hwfq.1 r (List.mem_cons_of_mem q h2)
            · intro r hr
              have := hhead r hr
              show max (max p.2 h) q.2 + 2 ≤ r.1
              omega
          · rename_i hm
            refine ⟨?_, List.chain'_cons.mpr ⟨?_, hwfq.2⟩⟩
            · intro r hr
              rcases List.mem_cons.mp hr with h1 | h2
              · rw [h1]
                show min p.1 h ≤ max p.2 h
                omega
              · exact hwfq.1 r h2
            · show max p.2 h + 2 ≤ q.1
              omega
      · rename_i hgt
        have hwfr := rangeWF_tail hwf
        have hih := ih h hwfr
        refine ⟨?_, List.chain'_cons'.mpr ⟨?_, hih.2⟩⟩
        · intro r hr
          rcases List.mem_cons.mp hr with h1 | h2
          · rw [h1]; exact hp12
          · exact hih.1 r h2
        · intro r hr
          have hmem : r ∈ rangeInsert h rest := List.mem_of_mem_head? hr
          exact rangeInsert_mem_lb (rest_start_lb hwf) (by omega) r hmem

theorem rangeErase_toFinset : ∀ {l : RangeList} (h : Nat), rangeWF l →
    rangeToFinset (rangeErase h l) = (rangeToFinset l).erase h := by
  intro l
  induction l with
  | nil =>
    intro h _
    simp [rangeErase, rangeToFinset]
  | cons p rest ih =>
    intro h hwf
    have hp12 : p.1 ≤ p.2 := hwf.1 p (by simp)
    have hlb : ∀ y ∈ rangeToFinset rest, p.2 + 2 ≤ y := fun y hy => mem_rest_lb hwf hy
    simp only [rangeErase]
    split
    · rename_i hlt
      ext x
      by_cases hxr : x ∈ rangeToFinset rest
      · have := hlb x hxr
        simp [rangeToFinset_cons, hxr, Finset.mem_erase]
        all_goals omega
      · simp [rangeToFinset_cons, hxr, Finset.mem_erase]
        all_goals omega
    · rename_i hge1
      split
      · rename_i hgt
        rw [rangeToFinset_cons, rangeToFinset_cons, ih h (rangeWF_tail hwf)]
        ext x
        by_cases hxr : x ∈ rangeToFinset rest
        · have := hlb x hxr
          simp [hxr, Finset.mem_erase]
          all_goals omega
        · simp [hxr, Finset.mem_erase]
          all_goals omega
      · rename_i hle2
        split
        · rename_i heq
          ext x
          by_cases hxr : x ∈ rangeToFinset rest
          · have := hlb x hxr
            simp [rangeToFinset_cons, hxr, Finset.mem_erase]
            all_goals omega
          · simp [rangeToFinset_cons, hxr, Finset.mem_erase]
            all_goals omega
        · rename_i hne
          split
          · rename_i he1
            ext x
            by_cases hxr : x ∈ rangeToFinset rest
            · have := hlb x hxr
              simp [rangeToFinset_cons, hxr, Finset.mem_erase]
              all_goals omega
            · simp [rangeToFinset_cons, hxr, Finset.mem_erase]
              all_goals omega
          · rename_i hne1
            split
            · rename_i he2
              ext x
              by_cases hxr : x ∈ rangeToFinset rest
              · have := hlb x hxr
                simp [rangeToFinset_cons, hxr, Finset.mem_erase]
                all_goals omega
              · simp [rangeToFinset_cons, hxr, Finset.mem_erase]
                all_goals omega
            · rename_i hne2
              ext x
              by_cases hxr : x ∈ rangeToFinset rest
              · have := hlb x hxr
                simp [rangeToFinset_cons, hxr, Finset.mem_erase]
                all_goals omega
              · simp [rangeToFinset_cons, hxr, Finset.mem_erase]
                all_goals omega

theorem rangeErase_wf : ∀ {l : RangeList} (h : Nat), rangeWF l →
    rangeWF (rangeErase h l) := by
  intro l
  induction l with
  | nil =>
    intro h _
    simp [rangeErase]
    exact ⟨by simp, List.chain'_nil⟩
  | cons p rest ih =>
    intro h hwf
    have hp12 : p.1 ≤ p.2 := hwf.1 p (by simp)
    have hwfr := rangeWF_tail hwf
    rcases List.chain'_cons'.mp hwf.2 with ⟨hhead, hch⟩
    simp only [rangeErase]
    split
    · exact hwf
    · rename_i hge1
      split
      · rename_i hgt
        have hih := ih h hwfr
        refine ⟨?_, List.chain'_cons'.mpr ⟨?_, hih.2⟩⟩
        · intro r hr
          rcases List.mem_cons.mp hr with h1 | h2
          · rw [h1]; exact hp12
          · exact hih.1 r h2
        · intro r hr
          exact rangeErase_mem_lb (rest_start_lb hwf) r (List.mem_of_mem_head? hr)
      · rename_i hle2
        split
        · exact hwfr
        · rename_i hne
          split
          · rename_i he1
            refine ⟨?_, List.chain'_cons'.mpr ⟨?_, hch⟩⟩
            · intro r hr
              rcases List.mem_cons.mp hr with h1 | h2
              · rw [h1]
                show p.1 + 1 ≤ p.2
                omega
              · exact hwfr.1 r h2
            · intro r hr
              have := hhead r hr
              show p.2 + 2 ≤ r.1
              omega
          · rename_i hne1
            split
            · rename_i he2
              refine ⟨?_, List.chain'_cons'.mpr ⟨?_, hch⟩⟩
              · intro r hr
                rcases List.mem_cons.mp hr with h1 | h2
                · rw [h1]
                  show p.1 ≤ p.2 - 1
                  omega
                · exact hwfr.1 r h2
              · intro r hr
                have := hhead r hr
                show p.2 - 1 + 2 ≤ r.1
                omega
            · rename_i hne2
              refine ⟨?_, List.chain'_cons.mpr ⟨?_, List.chain'_cons'.mpr ⟨?_, hch⟩⟩⟩
              · intro r hr
                rcases List.mem_cons.mp hr with h1 | h2
                · rw [h1]
                  show p.1 ≤ h - 1
                  omega
                · rcases List.mem_cons.mp h2 with h3 | h4
                  · rw [h3]
                    show h + 1 ≤ p.2
                    omega
                  · exact hwfr.1 r h4
              · show h - 1 + 2 ≤ h + 1
                omega
              · intro r hr
                have := hhead r hr
                show p.2 + 2 ≤ r.1
                omega

theorem rangeSize_eq_card : ∀ {l : RangeList}, rangeWF l →
    rangeSize l = (rangeToFinset l).card := by
  intro l
  induction l with
  | nil =>
    intro _
    simp [rangeSize, rangeToFinset]
  | cons p rest ih =>
    intro hwf
    have hp12 : p.1 ≤ p.2 := hwf.1 p (by simp)
    have hlb : ∀ y ∈ rangeToFinset rest, p.2 + 2 ≤ y := fun y hy => mem_rest_lb hwf hy
    have hdisj : Disjoint (Finset.Icc p.1 p.2) (rangeToFinset rest) := by
      rw [Finset.disjoint_left]
      intro x hx hx2
      have h1 := Finset.mem_Icc.mp hx
      have h2 := hlb x hx2
      omega
    calc rangeSize (p :: rest) = (p.2 + 1 - p.1) + rangeSize rest := by
          simp [rangeSize]
    _ = (Finset.Icc p.1 p.2).card + (rangeToFinset rest).card := by
          rw [Nat.card_Icc, ih (rangeWF_tail hwf)]
    _ = (rangeToFinset (p :: rest)).card := by
          rw [rangeToFinset_cons, Finset.card_union_of_disjoint hdisj]

/-- A workload step on a Range: insert or erase one handle. -/
inductive RangeOp where
  | ins : Nat → RangeOp
  | del : Nat → RangeOp

def rangeStep (l : RangeList) (op : RangeOp) : RangeList :=
  match op with
  | .ins h => rangeInsert h l
  | .del h => rangeErase h l

def finsetStep (s : Finset Nat) (op : RangeOp) : Finset Nat :=
  match op with
  | .ins h => insert h s
  | .del h => s.erase h

/-- Run a sequence of single-handle insert/erase operations from the empty
Range. -/
def applyRangeOps (ops : List RangeOp) : RangeList := ops.foldl rangeStep []

/-- The set of distinct individually-inserted values, after accounting for
erasures. -/
def rangeOpsSet (ops : List RangeOp) : Finset Nat := ops.foldl finsetStep ∅

theorem applyRangeOps_spec : ∀ (ops : List RangeOp) (l : RangeList), rangeWF l →
    rangeWF (ops.foldl rangeStep l) ∧
    rangeToFinset (ops.foldl rangeStep l) = ops.foldl finsetStep (rangeToFinset l) := by
  intro ops
  induction ops with
  | nil =>
    intro l hwf
    exact ⟨hwf, rfl⟩
  | cons op rest ih =>
    intro l hwf
    cases op with
    | ins h =>
      have h1 := rangeInsert_wf h hwf
      have h2 := rangeInsert_toFinset h hwf
      have h3 := ih (rangeInsert h l) h1
      refine ⟨h3.1, ?_⟩
      rw [List.foldl_cons, List.foldl_cons]
      show rangeToFinset (rest.foldl rangeStep (rangeInsert h l)) =
        rest.foldl finsetStep (insert h (rangeToFinset l))
      rw [h3.2, h2]
    | del h =>
      have h1 := rangeErase_wf h hwf
      have h2 := rangeErase_toFinset h hwf
      have h3 := ih (rangeErase h l) h1
      refine ⟨h3.1, ?_⟩
      rw [List.foldl_cons, List.foldl_cons]
      show rangeToFinset (rest.foldl rangeStep (rangeErase h l)) =
        rest.foldl finsetStep ((rangeToFinset l).erase h)
      rw [h3.2, h2]

/-- C3: for every sequence of single-handle insertions and erasures starting
from the empty Range, the resulting Range never contains two adjacent or
overlapping intervals (a value inserted adjacent to an interval boundary is
merged into that interval), and `size()` equals the number of distinct
individually-inserted values minus those erased. -/
theorem range_canonicality (ops : List RangeOp) :
    rangeWF (applyRangeOps ops)
    ∧ rangeToFinset (applyRangeOps ops) = rangeOpsSet ops
    ∧ rangeSize (applyRangeOps ops) = (rangeOpsSet ops).card := by
  have h := applyRangeOps_spec ops [] ⟨by simp, List.chain'_nil⟩
  refine ⟨h.1, h.2, ?_⟩
  show rangeSize (List.foldl rangeStep [] ops) =
    (List.foldl finsetStep (rangeToFinset []) ops).card
  rw [rangeSize_eq_card h.1, h.2]

/-!
`Core::get_coords(const Range&, double*)` (Core.cpp:700-742).  The loop body
is embedded below; `VertexSequence`/`TypeSequenceManager` sources are not in
the snapshot, so the per-type sequence map and its `lower_bound` are modelled
from the spec (§4.4).
-/

/-- A vertex sequence: a contiguous block of live vertex handles
`[startH, endH]` with its coordinate array (coordinates are an opaque payload
that `get_coords` only copies; we model them as integer triples). -/
structure VSeq where
  startH : Nat
  endH : Nat
  coords : List (Int × Int × Int)

/-- Modelled from the spec (§4.4): the per-type sequence collection is sorted
by start handle, with non-overlapping non-empty blocks. -/
def seqWF (seqs : List VSeq) : Prop :=
  (∀ s ∈ seqs, s.startH ≤ s.endH) ∧
  List.Pairwise (fun s t : VSeq => s.endH < t.startH) seqs

/-- Modelled from the spec (§4.4): `TypeSequenceManager::lower_bound(h)` —
the first sequence, in start-handle order, whose block does not end before
`h`. -/
def seqLowerBound (h : Nat) : List VSeq → Option VSeq
  | [] => none
  | s :: rest => if h ≤ s.endH then some s else seqLowerBound h rest

/-- A handle resolves to some vertex sequence. -/
def vertexCovered (seqs : List VSeq) (h : Nat) : Prop :=
  ∃ s ∈ seqs, s.startH ≤ h ∧ h ≤ s.endH

instance (seqs : List VSeq) (h : Nat) : Decidable (vertexCovered seqs h) := by
  unfold vertexCovered
  exact List.decidableBEx _ seqs

/-- Coordinates for handles `[a, b]` inside sequence `s`, read at offset
`a - s.startH` as in the embedded loop. -/
def readCoords (s : VSeq) (a b : Nat) : List (Int × Int × Int) :=
  (List.range (b + 1 - a)).map (fun j => s.coords.getD (a - s.startH + j) (0, 0, 0))

theorem seqLowerBound_le {h : Nat} : ∀ {seqs : List VSeq} {s : VSeq},
    seqLowerBound h seqs = some s → h ≤ s.endH := by
  intro seqs
  induction seqs with
  | nil =>
    intro s hs
    simp [seqLowerBound] at hs
  | cons t rest ih =>
    intro s hs
    simp only [seqLowerBound] at hs
    split at hs
    · rename_i hle
      rw [← Option.some_inj.mp hs]
      exact hle
    · exact ih hs

theorem seqLowerBound_mem {h : Nat} : ∀ {seqs : List VSeq} {s : VSeq},
    seqLowerBound h seqs = some s → s ∈ seqs := by
  intro seqs
  induction seqs with
  | nil =>
    intro s hs
    simp [seqLowerBound] at hs
  | cons t rest ih =>
    intro s hs
    simp only [seqLowerBound] at hs
    split at hs
    · rw [← Option.some_inj.mp hs]
      exact List.mem_cons_self t rest
    · exact List.mem_cons_of_mem t (ih hs)

theorem seqLowerBound_none {h : Nat} : ∀ {seqs : List VSeq},
    seqLowerBound h seqs = none → ¬ vertexCovered seqs h := by
  intro seqs
  induction seqs with
  | nil =>
    intro _ hc
    rcases hc with ⟨s, hs, _⟩
    simp at hs
  | cons t rest ih =>
    intro hn hc
    simp only [seqLowerBound] at hn
    split at hn
    · exact absurd hn (by simp)
    · rename_i hgt
      rcases hc with ⟨s, hs, h1, h2⟩
      rcases List.mem_cons.mp hs with he | hm
      · subst he
        omega
      · exact ih hn ⟨s, hm, h1, h2⟩

/-- When `lower_bound` finds a sequence that starts beyond `h`, no sequence
covers `h`. -/
theorem seqLowerBound_gap {h : Nat} {s : VSeq} : ∀ {seqs : List VSeq},
    seqWF seqs → seqLowerBound h seqs = some s → h < s.startH →
    ¬ vertexCovered seqs h := by
  intro seqs
  induction seqs with
  | nil =>
    intro _ hs
    simp [seqLowerBound] at hs
  | cons t rest ih =>
    intro hwf hs hlt hc
    have hwfr : seqWF rest := ⟨fun u hu => hwf.1 u (List.mem_cons_of_mem t hu),
      (List.pairwise_cons.mp hwf.2).2⟩
    have hpw : ∀ u ∈ rest, t.endH < u.startH := (List.pairwise_cons.mp hwf.2).1
    simp only [seqLowerBound] at hs
    split at hs
    · rename_i hle
      have hst : s = t := Option.some_inj.mp hs.symm |>.symm ▸ rfl
      rcases hc with ⟨u, hu, h1, h2⟩
      rcases List.mem_cons.mp hu with he | hm
      · subst he
        rw [← Option.some_inj.mp hs] at hlt
        omega
      · have := hpw u hm
        omega
    · rename_i hgt
      rcases hc with ⟨u, hu, h1, h2⟩
      rcases List.mem_cons.mp hu with he | hm
      · subst he
        omega
      · exact ih hwfr hs hlt ⟨u, hm, h1, h2⟩

/-- When `h` is covered, `lower_bound` finds exactly the covering sequence. -/
theorem seqLowerBound_covered {h : Nat} : ∀ {seqs : List VSeq},
    seqWF seqs → vertexCovered seqs h →
    ∃ s, seqLowerBound h seqs = some s ∧ s.startH ≤ h ∧ h ≤ s.endH := by
  intro seqs
  induction seqs with
  | nil =>
    intro _ hc
    rcases hc with ⟨s, hs, _⟩
    simp at hs
  | cons t rest ih =>
    intro hwf hc
    have hwfr : seqWF rest := ⟨fun u hu => hwf.1 u (List.mem_cons_of_mem t hu),
      (List.pairwise_cons.mp hwf.2).2⟩
    have hpw : ∀ u ∈ rest, t.endH < u.startH := (List.pairwise_cons.mp hwf.2).1
    by_cases hle : h ≤ t.endH
    · refine ⟨t, by simp [seqLowerBound, hle], ?_, hle⟩
      rcases hc with ⟨u, hu, h1, h2⟩
      rcases List.mem_cons.mp hu with he | hm
      · subst he
        exact h1
      · have := hpw u hm
        omega
    · have hcr : vertexCovered rest h := by
        rcases hc with ⟨u, hu, h1, h2⟩
        rcases List.mem_cons.mp hu with he | hm
        · subst he
          omega
        · exact ⟨u, hm, h1, h2⟩
      rcases ih hwfr hcr with ⟨s, hs, h1, h2⟩
      exact ⟨s, by simp [seqLowerBound, hle, hs], h1, h2⟩

/-- Embedded from `Core::get_coords` (Core.cpp:700-742): process the covered
prefix of the pair `[first, second]` through the sequence `lower_bound`
resolves, then continue at the first handle past that sequence.  Any handle
no vertex sequence covers aborts with `MB_ENTITY_NOT_FOUND`. -/
def coordsForPair (seqs : List VSeq) (first second : Nat) :
    Except ErrorCode (List (Int × Int × Int)) :=
  match hlb : seqLowerBound first seqs with
  | none => .error .MB_ENTITY_NOT_FOUND
  | some s =>
    if first < s.startH then .error .MB_ENTITY_NOT_FOUND
    else if second ≤ s.endH then .ok (readCoords s first second)
    else
      match coordsForPair seqs (s.endH + 1) second with
      | .error e => .error e
      | .ok rest => .ok (readCoords s first s.endH ++ rest)
termination_by second + 1 - first
decreasing_by
  have hle := seqLowerBound_le hlb
  omega

/-- Embedded from `Core::get_coords` (Core.cpp:700-742): the outer loop over
the Range's interval pairs (restructured pair-by-pair; the C++ loop advances
`first` across pair and sequence boundaries with identical effect). -/
def get_coords (seqs : List VSeq) : RangeList → Except ErrorCode (List (Int × Int × Int))
  | [] => .ok []
  | (a, b) :: rest =>
    match coordsForPair seqs a b with
    | .error e => .error e
    | .ok cs =>
      match get_coords seqs rest with
      | .error e => .error e
      | .ok more => .ok (cs ++ more)

theorem coordsForPair_ok {seqs : List VSeq} (hwf : seqWF seqs) :
    ∀ (n first second : Nat), second + 1 - first ≤ n → first ≤ second →
    (∀ x, first ≤ x → x ≤ second → vertexCovered seqs x) →
    ∃ cs, coordsForPair seqs first second = .ok cs := by
  intro n
  induction n with
  | zero =>
    intro first second h1 h2 _
    omega
  | succ n ih =>
    intro first second h1 h2 hcov
    rcases seqLowerBound_covered hwf (hcov first le_rfl h2) with ⟨s, hs, hs1, hs2⟩
    rw [coordsForPair, hs]
    simp only [not_lt.mpr hs1, if_false]
    by_cases hend : second ≤ s.endH
    · exact ⟨readCoords s first second, by simp [hend]⟩
    · have hrec : ∃ cs, coordsForPair seqs (s.endH + 1) second = .ok cs := by
        refine ih (s.endH + 1) second (by omega) (by omega) ?_
        intro x hx1 hx2
        exact hcov x (by omega) hx2
      rcases hrec with ⟨cs, hcs⟩
      exact ⟨readCoords s first s.endH ++ cs, by simp [hend, hcs]⟩

theorem coordsForPair_err {seqs : List VSeq} (hwf : seqWF seqs) :
    ∀ (n first second : Nat), second + 1 - first ≤ n → first ≤ second →
    (∃ x, first ≤ x ∧ x ≤ second ∧ ¬ vertexCovered seqs x) →
    coordsForPair seqs first second = .error .MB_ENTITY_NOT_FOUND := by
  intro n
  induction n with
  | zero =>
    intro first second h1 h2 _
    omega
  | succ n ih =>
    intro first second h1 h2 hunc
    rcases hunc with ⟨x, hx1, hx2, hxu⟩
    rcases hlb : seqLowerBound first seqs with _ | s
    · rw [coordsForPair, hlb]
    · have hsmem := seqLowerBound_mem hlb
      have hsle := seqLowerBound_le hlb
      rw [coordsForPair, hlb]
      by_cases hst : first < s.startH
      · simp [hst]
      · simp only [hst, if_false]
        have hcf : s.startH ≤ first := not_lt.mp hst
        by_cases hend : second ≤ s.endH
        · exact absurd ⟨s, hsmem, by omega, by omega⟩ hxu
        · simp only [hend, if_false]
          have hx3 : s.endH + 1 ≤ x := by
            by_contra hlt
            exact hxu ⟨s, hsmem, by omega, by omega⟩
          have := ih (s.endH + 1) second (by omega) (by omega) ⟨x, hx3, hx2, hxu⟩
          rw [this]

theorem get_coords_err {seqs : List VSeq} (hwf : seqWF seqs) :
    ∀ {r : RangeList}, rangeWF r →
    (∃ h ∈ rangeToFinset r, ¬ vertexCovered seqs h) →
    get_coords seqs r = .error .MB_ENTITY_NOT_FOUND := by
  intro r
  induction r with
  | nil =>
    intro _ hex
    rcases hex with ⟨h, hh, _⟩
    simp [rangeToFinset] at hh
  | cons p rest ih =>
    intro hr hex
    rcases hex with ⟨h, hh, hunc⟩
    have hp12 : p.1 ≤ p.2 := hr.1 p (by simp)
    rw [rangeToFinset_cons] at hh
    show get_coords seqs ((p.1, p.2) :: rest) = .error .MB_ENTITY_NOT_FOUND
    rcases Finset.mem_union.mp hh with hh1 | hh2
    · have hicc := Finset.mem_Icc.mp hh1
      have := coordsForPair_err hwf (p.2 + 1 - p.1) p.1 p.2 le_rfl hp12
        ⟨h, hicc.1, hicc.2, hunc⟩
      simp [get_coords, this]
    · have hrec := ih (rangeWF_tail hr) ⟨h, hh2, hunc⟩
      rcases hcp : coordsForPair seqs p.1 p.2 with e | cs
      · have : e = ErrorCode.MB_ENTITY_NOT_FOUND := by
          by_cases hcov : ∀ x, p.1 ≤ x → x ≤ p.2 → vertexCovered seqs x
          · rcases coordsForPair_ok hwf (p.2 + 1 - p.1) p.1 p.2 le_rfl hp12 hcov with ⟨cs, hcs⟩
            rw [hcp] at hcs
            exact absurd hcs (by simp)
          · push_neg at hcov
            rcases hcov with ⟨x, hx1, hx2, hxu⟩
            have := coordsForPair_err hwf (p.2 + 1 - p.1) p.1 p.2 le_rfl hp12 ⟨x, hx1, hx2, hxu⟩
            rw [hcp] at this
            exact (Except.error.injEq _ _).mp this
        subst this
        simp [get_coords, hcp]
      · simp [get_coords, hcp, hrec]

theorem get_coords_ok {seqs : List VSeq} (hwf : seqWF seqs) :
    ∀ {r : RangeList}, rangeWF r →
    (∀ h ∈ rangeToFinset r, vertexCovered seqs h) →
    ∃ cs, get_coords seqs r = .ok cs := by
  intro r
  induction r with
  | nil =>
    intro _ _
    exact ⟨[], rfl⟩
  | cons p rest ih =>
    intro hr hcov
    have hp12 : p.1 ≤ p.2 := hr.1 p (by simp)
    have hcov1 : ∀ x, p.1 ≤ x → x ≤ p.2 → vertexCovered seqs x := by
      intro x h1 h2
      exact hcov x (by
        rw [rangeToFinset_cons]
        exact Finset.mem_union_left _ (Finset.mem_Icc.mpr ⟨h1, h2⟩))
    have hcov2 : ∀ h ∈ rangeToFinset rest, vertexCovered seqs h := by
      intro x hx
      exact hcov x (by
        rw [rangeToFinset_cons]
        exact Finset.mem_union_right _ hx)
    rcases coordsForPair_ok hwf (p.2 + 1 - p.1) p.1 p.2 le_rfl hp12 hcov1 with ⟨cs, hcs⟩
    rcases ih (rangeWF_tail hr) hcov2 with ⟨more, hmore⟩
    refine ⟨cs ++ more, ?_⟩
    show get_coords seqs ((p.1, p.2) :: rest) = .ok (cs ++ more)
    simp [get_coords, hcs, hmore]

/-- The handles of a Range, pair by pair in order. -/
def rangeElems (l : RangeList) : List Nat :=
  (l.map (fun p => (List.range (p.2 + 1 - p.1)).map (fun j => p.1 + j))).join

theorem rangeElems_cons (p : Nat × Nat) (l : RangeList) :
    rangeElems (p :: l) =
      (List.range (p.2 + 1 - p.1)).map (fun j => p.1 + j) ++ rangeElems l := rfl

theorem mem_rangeElems {x : Nat} : ∀ {l : RangeList},
    x ∈ rangeElems l ↔ x ∈ rangeToFinset l := by
  intro l
  induction l with
  | nil =>
    simp [rangeElems, rangeToFinset]
  | cons p rest ih =>
    rw [rangeElems_cons, rangeToFinset_cons]
    simp only [List.mem_append, Finset.mem_union, List.mem_map, List.mem_range]
    constructor
    · rintro (⟨j, hj, hx⟩ | h2)
      · left
        exact Finset.mem_Icc.mpr (by omega)
      · right
        exact ih.mp h2
    · rintro (h1 | h2)
      · have := Finset.mem_Icc.mp h1
        left
        exact ⟨x - p.1, by omega, by omega⟩
      · right
        exact ih.mpr h2

/-- A sparse per-entity tag map lookup. -/
def sparseLookup (store : List (Nat × Int)) (h : Nat) : Option Int :=
  match store.find? (fun p => p.1 == h) with
  | some p => some p.2
  | none => none

/-- Modelled from the spec (§3 sparse back-end): store a value in the
handle-to-value map. -/
def sparseSet (store : List (Nat × Int)) (h : Nat) (v : Int) :
    List (Nat × Int) :=
  (h, v) :: store.filter (fun q => q.1 != h)

/-- Modelled from the spec (§4.6 `get_data`, §7 propagation policy):
`TagServer::get_data` over the handles of a Range resolves every handle;
a handle that is not a live entity fails the whole call with
`MB_ENTITY_NOT_FOUND`, a live handle with neither an explicit value nor a
tag default fails it with `MB_TAG_NOT_FOUND`; no handle is skipped. -/
def tagServer_get_data (store : List (Nat × Int)) (defv : Option Int)
    (live : List Nat) : List Nat → Except ErrorCode (List Int)
  | [] => .ok []
  | h :: hs =>
    if h ∈ live then
      match sparseLookup store h, defv with
      | some v, _ =>
        match tagServer_get_data store defv live hs with
        | .ok vs => .ok (v :: vs)
        | .error e => .error e
      | none, some d =>
        match tagServer_get_data store defv live hs with
        | .ok vs => .ok (d :: vs)
        | .error e => .error e
      | none, none => .error .MB_TAG_NOT_FOUND
    else .error .MB_ENTITY_NOT_FOUND

theorem tagServer_get_data_err {store : List (Nat × Int)} {defv : Option Int}
    {live : List Nat} : ∀ {hs : List Nat}, (∃ h ∈ hs, h ∉ live) →
    ∃ e, tagServer_get_data store defv live hs = .error e := by
  intro hs
  induction hs with
  | nil =>
    intro hex
    rcases hex with ⟨h, hh, _⟩
    simp at hh
  | cons h rest ih =>
    intro hex
    rcases hex with ⟨x, hx, hxl⟩
    by_cases hl : h ∈ live
    · have hxr : x ∈ rest := by
        rcases List.mem_cons.mp hx with he | hm
        · subst he
          exact absurd hl hxl
        · exact hm
      rcases ih ⟨x, hxr, hxl⟩ with ⟨e, he⟩
      rcases hsl : sparseLookup store h with _ | v
      · rcases hd : defv with _ | d
        · exact ⟨.MB_TAG_NOT_FOUND, by simp [tagServer_get_data, hl, hsl, hd]⟩
        · refine ⟨e, ?_⟩
          rw [hd] at he
          simp [tagServer_get_data, hl, hsl, hd, he]
      · exact ⟨e, by simp [tagServer_get_data, hl, hsl, he]⟩
    · exact ⟨.MB_ENTITY_NOT_FOUND, by simp [tagServer_get_data, hl]⟩

/-- Modelled from the spec (§4.6 `set_data`, §7 propagation policy):
`TagServer::set_data` over the handles of a Range writes one buffer value
per handle in range order into the per-entity map; a handle that is not a
live entity fails the whole call with `MB_ENTITY_NOT_FOUND` (an exhausted
input buffer is `MB_FAILURE`); no bad handle is silently skipped.  Writes
already applied when the failing handle is reached stay applied: the spec
(§5) has no rollback for partially-applied bulk writes. -/
def tagServer_set_data (store : List (Nat × Int)) (live : List Nat) :
    List Nat → List Int → Except ErrorCode (List (Nat × Int))
  | [], _ => .ok store
  | h :: hs, vs =>
    if h ∈ live then
      match vs with
      | [] => .error .MB_FAILURE
      | v :: vtl => tagServer_set_data (sparseSet store h v) live hs vtl
    else .error .MB_ENTITY_NOT_FOUND

theorem tagServer_set_data_err {live : List Nat} :
    ∀ {hs : List Nat} {vs : List Int} {store : List (Nat × Int)},
    hs.length ≤ vs.length → (∃ h ∈ hs, h ∉ live) →
    tagServer_set_data store live hs vs = .error .MB_ENTITY_NOT_FOUND := by
  intro hs
  induction hs with
  | nil =>
    intro vs store _ hex
    rcases hex with ⟨h, hh, _⟩
    simp at hh
  | cons h rest ih =>
    intro vs store hlen hex
    by_cases hl : h ∈ live
    · rcases hex with ⟨x, hx, hxl⟩
      have hxr : x ∈ rest := by
        rcases List.mem_cons.mp hx with he | hm
        · subst he
          exact absurd hl hxl
        · exact hm
      cases vs with
      | nil => simp at hlen
      | cons v vtl =>
        simp only [tagServer_set_data, hl, if_true]
        exact ih (by simpa using hlen) ⟨x, hxr, hxl⟩
    · simp [tagServer_set_data, hl]

theorem tagServer_set_data_ok {live : List Nat} :
    ∀ {hs : List Nat} {vs : List Int} {store : List (Nat × Int)},
    hs.length ≤ vs.length → (∀ h ∈ hs, h ∈ live) →
    ∃ store', tagServer_set_data store live hs vs = .ok store' := by
  intro hs
  induction hs with
  | nil =>
    intro vs store _ _
    exact ⟨store, rfl⟩
  | cons h rest ih =>
    intro vs store hlen hall
    have hl : h ∈ live := hall h (List.mem_cons_self _ _)
    cases vs with
    | nil => simp at hlen
    | cons v vtl =>
      rcases @ih vtl (sparseSet store h v) (by simpa using hlen)
        (fun x hx => hall x (List.mem_cons_of_mem _ hx)) with ⟨store', hst⟩
      exact ⟨store', by simp [tagServer_set_data, hl, hst]⟩

/-- C2: for Range-based bulk reads and writes — `Core::get_coords` over a
Range (Core.cpp:700), tag `get_data` over a Range (Core.cpp:1719) and tag
`set_data` over a Range (Core.cpp:1740, both delegating to the TagServer) —
if any handle in the input Range fails resolution the whole call fails and
reports the error kind; no bad handle is silently skipped, and when every
handle resolves the coordinate read and the bulk write succeed. -/
theorem bulk_range_all_or_nothing (seqs : List VSeq) (r : RangeList)
    (store : List (Nat × Int)) (defv : Option Int) (live : List Nat)
    (vs : List Int) (hwf : seqWF seqs) (hr : rangeWF r) :
    ((∃ h ∈ rangeToFinset r, ¬ vertexCovered seqs h) →
      get_coords seqs r = .error .MB_ENTITY_NOT_FOUND)
    ∧ ((∀ h ∈ rangeToFinset r, vertexCovered seqs h) →
      ∃ cs, get_coords seqs r = .ok cs)
    ∧ ((∃ h ∈ rangeElems r, h ∉ live) →
      ∃ e, tagServer_get_data store defv live (rangeElems r) = .error e)
    ∧ ((rangeElems r).length ≤ vs.length → (∃ h ∈ rangeElems r, h ∉ live) →
      tagServer_set_data store live (rangeElems r) vs =
        .error .MB_ENTITY_NOT_FOUND)
    ∧ ((rangeElems r).length ≤ vs.length → (∀ h ∈ rangeElems r, h ∈ live) →
      ∃ store', tagServer_set_data store live (rangeElems r) vs = .ok store') :=
  ⟨fun hex => get_coords_err hwf hr hex,
   fun hcov => get_coords_ok hwf hr hcov,
   fun hex => tagServer_get_data_err hex,
   fun hlen hex => tagServer_set_data_err hlen hex,
   fun hlen hall => tagServer_set_data_ok hlen hall⟩

/-- Witness for C2 at concrete inputs: one vertex sequence `[1,3]`, the Range
`{[2,5]}` (handles 4 and 5 unresolvable), and a live-entity list missing
handle 5, with a four-value write buffer. -/
theorem bulk_range_all_or_nothing_witness :
    (seqWF [⟨1, 3, [(0, 0, 0), (1, 1, 1), (2, 2, 2)]⟩] ∧ rangeWF [(2, 5)])
    ∧ get_coords [⟨1, 3, [(0, 0, 0), (1, 1, 1), (2, 2, 2)]⟩] [(2, 5)] =
        .error .MB_ENTITY_NOT_FOUND
    ∧ (∃ e, tagServer_get_data [] (some 7) [2, 3, 4] (rangeElems [(2, 5)]) = .error e)
    ∧ tagServer_set_data [] [2, 3, 4] (rangeElems [(2, 5)]) [10, 11, 12, 13] =
        .error .MB_ENTITY_NOT_FOUND := by
  have hwf : seqWF [⟨1, 3, [(0, 0, 0), (1, 1, 1), (2, 2, 2)]⟩] := by
    constructor
    · intro s hs
      simp at hs
      rw [hs]
      decide
    · simp
  have hr : rangeWF [(2, 5)] := by
    constructor
    · intro p hp
      simp at hp
      rw [hp]
      decide
    · simp
  have hmain := bulk_range_all_or_nothing [⟨1, 3, [(0, 0, 0), (1, 1, 1), (2, 2, 2)]⟩]
    [(2, 5)] [] (some 7) [2, 3, 4] [10, 11, 12, 13] hwf hr
  refine ⟨⟨hwf, hr⟩, ?_, ?_, ?_⟩
  · refine hmain.1 ⟨4, ?_, ?_⟩
    · decide
    · decide
  · refine hmain.2.2.1 ⟨5, ?_, ?_⟩
    · decide
    · decide
  · refine hmain.2.2.2.1 (by decide) ⟨5, ?_, ?_⟩
    · decide
    · decide

/-!
The mesh-database state operated on by `Core::delete_entities`,
`Core::get_entities_by_type_and_tag`, `Core::get_number_entities_by_type` and
`Core::create_element` (all embedded from Core.cpp).  The collaborating
components (SequenceManager, TagServer, MeshSetSequence, AEntityFactory) are
not in the snapshot and are modelled from the spec where marked.
-/

/-- Database state: the sequence managers' live handles (unique by the spec's
handle invariant, §3), meshset contents, the tag server's per-tag sparse
per-entity data, and element connectivity. -/
structure DB where
  live : List Nat
  sets : List (Nat × List Nat)
  tagStore : List (Nat × List (Nat × Int))
  conn : List (Nat × List Nat)

/-- Per-entity value of tag `t` on handle `h`. -/
def tagLookup (db : DB) (t : Nat) (h : Nat) : Option Int :=
  match db.tagStore.find? (fun p => p.1 == t) with
  | some p => sparseLookup p.2 h
  | none => none

/-- Modelled from the spec (§4.4/§4.5 `find`): handle resolution reports
entity-not-found when no sequence covers the handle. -/
def DB.find (db : DB) (h : Nat) : ErrorCode :=
  if h ∈ db.live then .MB_SUCCESS else .MB_ENTITY_NOT_FOUND

/-- Modelled from the spec (§2 data flow, §4.6 `remove_tag_data`):
`TagServer::reset_data(h)` purges every tag's per-entity data for `h`. -/
def tagReset (store : List (Nat × List (Nat × Int))) (h : Nat) :
    List (Nat × List (Nat × Int)) :=
  store.map (fun p => (p.1, p.2.filter (fun q => q.1 != h)))

/-- The per-handle phase of `Core::delete_entities` (Core.cpp:2129-2172)
that runs before the SequenceManager release: the TagServer purge
(`tagServer->reset_data`), and for entity-sets the set-link cleanup. -/
def purgePhase (db : DB) (h : Nat) : DB :=
  if TYPE_FROM_HANDLE h = EntityType.MBENTITYSET then
    { db with
      tagStore := tagReset db.tagStore h,
      sets := db.sets.filter (fun p => p.1 != h) }
  else { db with tagStore := tagReset db.tagStore h }

/-- Embedded from `Core::delete_entities` (Core.cpp:2129-2172), loop body for
one handle: the adjacency notification (AEntityFactory, modelled as always
succeeding), then the purge phase, and finally the SequenceManager release
(modelled from the spec: fails with entity-not-found when no sequence covers
the handle). -/
def DB.delete_one (db : DB) (h : Nat) : ErrorCode × DB :=
  if h ∈ (purgePhase db h).live then
    (.MB_SUCCESS,
      { purgePhase db h with
        live := (purgePhase db h).live.filter (fun x => x != h),
        conn := (purgePhase db h).conn.filter (fun p => p.1 != h) })
  else
    (.MB_ENTITY_NOT_FOUND, purgePhase db h)

/-- One fold step of the `Core::delete_entities` loop: keep the last failure
as the overall result and continue with the next handle. -/
def deleteStep (acc : ErrorCode × DB) (h : Nat) : ErrorCode × DB :=
  (if (DB.delete_one acc.2 h).1 = ErrorCode.MB_SUCCESS then acc.1
   else (DB.delete_one acc.2 h).1,
   (DB.delete_one acc.2 h).2)

/-- Embedded from `Core::delete_entities(const Range&)` (Core.cpp:2129-2172):
iterate the handles of the range (the C++ walks them in reverse handle
order; the embedded per-handle step is order-independent for the stated
properties), folding `deleteStep`. -/
def DB.delete_entities (db : DB) (r : List Nat) : ErrorCode × DB :=
  r.foldl deleteStep (ErrorCode.MB_SUCCESS, db)

/-- All live entities of one type, as held by the per-type sequence managers
(modelled from the spec, §4.5 `get_entities`). -/
def entitiesOfType (db : DB) (type : EntityType) : List Nat :=
  db.live.filter (fun h => TYPE_FROM_HANDLE h == type)

/-- Modelled from the spec (§4.4 MeshSetSequence, §8 deletion purges
queryability): a meshset contents query resolves against live entities of
the requested type (`MeshSetSequence.cpp` is not in the snapshot; sets are
modelled flat, so the `recursive` flag only matters through the entity-set
type guard of the embedded callers). -/
def DB.get_entities_by_type (db : DB) (meshset : Nat) (type : EntityType)
    (recursive : Bool) : Except ErrorCode (List Nat) :=
  if meshset = 0 then .ok (entitiesOfType db type)
  else
    match db.sets.find? (fun p => p.1 == meshset) with
    | none => .error .MB_ENTITY_NOT_FOUND
    | some p => .ok (p.2.filter (fun h =>
        (TYPE_FROM_HANDLE h == type) && db.live.contains h))

/-- Modelled from the spec (§4.6): does handle `h` match one requested
(tag, optional value) pair — a null value pointer means "has any explicit
value"; entities carrying no explicit value do not match. -/
def tagValueMatch (db : DB) (h : Nat) (tv : Nat × Option Int) : Bool :=
  match tagLookup db tv.1 h with
  | some w =>
    match tv.2 with
    | some v => w == v
    | none => true
  | none => false

/-- Modelled from the spec (§4.6 `get_entities_with_tag_values`): filter the
candidate range by the conjunction (INTERSECT) or disjunction (UNION) of the
per-tag matches; with no tags the candidate range itself is the result. -/
def get_entities_with_tag_values (db : DB) (range : List Nat)
    (tags : List (Nat × Option Int)) (intersect : Bool) : List Nat :=
  if tags.isEmpty then range
  else if intersect then range.filter (fun h => tags.all (tagValueMatch db h))
  else range.filter (fun h => tags.any (tagValueMatch db h))

/-- Embedded from `Core::get_entities_by_type_and_tag` (Core.cpp:1522-1558):
the recursive/entity-set guard, the type query, the empty-range shortcuts,
the intersection with a non-empty in/out `entities` argument, and the final
TagServer filter (the TagServer itself is spec-modelled). -/
def DB.get_entities_by_type_and_tag (db : DB) (meshset : Nat)
    (type : EntityType) (tags : List (Nat × Option Int)) (intersect : Bool)
    (recursive : Bool) (entities : List Nat) : ErrorCode × List Nat :=
  if recursive ∧ type = EntityType.MBENTITYSET then
    (.MB_TYPE_OUT_OF_RANGE, entities)
  else
    match db.get_entities_by_type meshset type recursive with
    | .error e => (e, entities)
    | .ok tmp0 =>
      if tmp0.isEmpty then (.MB_SUCCESS, if intersect then [] else entities)
      else if intersect then
        let tmp := if entities.isEmpty then tmp0
          else entities.filter (fun h => tmp0.contains h)
        (.MB_SUCCESS, get_entities_with_tag_values db tmp tags true)
      else
        (.MB_SUCCESS, entities ++
          (get_entities_with_tag_values db tmp0 tags false).filter
            (fun h => !(entities.contains h)))

/-- Embedded from `Core::get_number_entities_by_type` (Core.cpp:1636-1659):
the recursive/entity-set guard precedes both the meshset resolution and the
count; `num_ent` is the in/out count parameter, untouched on the guarded
path. -/
def DB.get_number_entities_by_type (db : DB) (meshset : Nat)
    (type : EntityType) (recursive : Bool) (num_ent : Nat) : ErrorCode × Nat :=
  if recursive ∧ type = EntityType.MBENTITYSET then
    (.MB_TYPE_OUT_OF_RANGE, num_ent)
  else if meshset ≠ 0 then
    match db.get_entities_by_type meshset type recursive with
    | .error e => (e, num_ent)
    | .ok l => (.MB_SUCCESS, l.length)
  else (.MB_SUCCESS, (entitiesOfType db type).length)

theorem sparseLookup_filtered {m : List (Nat × Int)} {h : Nat} :
    sparseLookup (m.filter (fun q => q.1 != h)) h = none := by
  unfold sparseLookup
  rw [List.find?_eq_none.mpr]
  intro q hq
  have := (List.mem_filter.mp hq).2
  simp at this ⊢
  exact this

theorem sparseLookup_filter_none {m : List (Nat × Int)} {x h : Nat}
    (hn : sparseLookup m x = none) :
    sparseLookup (m.filter (fun q => q.1 != h)) x = none := by
  unfold sparseLookup at hn ⊢
  rcases hf : List.find? (fun p => p.1 == x) m with _ | p
  · rw [List.find?_eq_none.mpr]
    intro q hq
    exact List.find?_eq_none.mp hf q (List.mem_filter.mp hq).1
  · rw [hf] at hn
    simp at hn

theorem find?_tagReset {store : List (Nat × List (Nat × Int))} {t : Nat}
    {h : Nat} :
    List.find? (fun p => p.1 == t) (tagReset store h) =
      (List.find? (fun p => p.1 == t) store).map
        (fun p => (p.1, p.2.filter (fun q => q.1 != h))) := by
  induction store with
  | nil => rfl
  | cons p rest ih =>
    by_cases hp : p.1 = t
    · simp [tagReset, List.find?, hp]
    · simp only [tagReset, List.map_cons, List.find?]
      have : (p.1 == t) = false := by
        simp [hp]
      simp only [this, Bool.false_eq_true, if_false]
      exact ih

theorem purgePhase_tagStore (db : DB) (h : Nat) :
    (purgePhase db h).tagStore = tagReset db.tagStore h := by
  unfold purgePhase
  split <;> rfl

theorem purgePhase_live (db : DB) (h : Nat) :
    (purgePhase db h).live = db.live := by
  unfold purgePhase
  split <;> rfl

/-- The purge of tag data for `h` is applied before, and regardless of, the
outcome of the sequence-manager release. -/
theorem delete_one_tagStore (db : DB) (h : Nat) :
    (DB.delete_one db h).2.tagStore = tagReset db.tagStore h := by
  unfold DB.delete_one
  split <;> exact purgePhase_tagStore db h

/-- After `delete_one`, the handle's per-entity data is gone from every tag. -/
theorem delete_one_tag_purged (db : DB) (h : Nat) (t : Nat) :
    tagLookup (DB.delete_one db h).2 t h = none := by
  unfold tagLookup
  rw [delete_one_tagStore, find?_tagReset]
  rcases hf : List.find? (fun p => p.1 == t) db.tagStore with _ | p <;>
    simp [hf, sparseLookup_filtered]

theorem delete_one_live_sub {db : DB} {h x : Nat}
    (hx : x ∈ (DB.delete_one db h).2.live) : x ∈ db.live := by
  unfold DB.delete_one at hx
  split at hx
  · have := (List.mem_filter.mp hx).1
    rw [purgePhase_live] at this
    exact this
  · rw [purgePhase_live] at hx
    exact hx

theorem delete_one_success_not_live {db : DB} {h : Nat}
    (hs : (DB.delete_one db h).1 = .MB_SUCCESS) :
    h ∉ (DB.delete_one db h).2.live := by
  intro hmem
  unfold DB.delete_one at hs hmem
  by_cases hc : h ∈ (purgePhase db h).live
  · rw [if_pos hc] at hmem
    have := (List.mem_filter.mp hmem).2
    simp at this
  · rw [if_neg hc] at hs
    exact absurd hs (by simp)

theorem delete_one_tag_none {db : DB} {t : Nat} {x h : Nat}
    (hn : tagLookup db t x = none) :
    tagLookup (DB.delete_one db h).2 t x = none := by
  unfold tagLookup at hn ⊢
  rw [delete_one_tagStore, find?_tagReset]
  rcases hf : List.find? (fun p => p.1 == t) db.tagStore with _ | p
  · simp [hf]
  · rw [hf] at hn
    simp [hf, sparseLookup_filter_none hn]

theorem deleteStep_acc {acc : ErrorCode × DB} {h : Nat}
    (hne : acc.1 ≠ .MB_SUCCESS) : (deleteStep acc h).1 ≠ .MB_SUCCESS := by
  unfold deleteStep
  split <;> simp_all

theorem delete_fold_acc : ∀ (r : List Nat) (acc : ErrorCode × DB),
    (r.foldl deleteStep acc).1 = .MB_SUCCESS → acc.1 = .MB_SUCCESS := by
  intro r
  induction r with
  | nil =>
    intro acc h
    exact h
  | cons h0 rest ih =>
    intro acc hs
    by_contra hne
    exact deleteStep_acc hne (ih (deleteStep acc h0) hs)

theorem delete_fold_mono : ∀ (r : List Nat) (acc : ErrorCode × DB) (x : Nat),
    (x ∉ acc.2.live → x ∉ (r.foldl deleteStep acc).2.live)
    ∧ (∀ t, tagLookup acc.2 t x = none →
        tagLookup (r.foldl deleteStep acc).2 t x = none) := by
  intro r
  induction r with
  | nil =>
    intro acc x
    exact ⟨fun h => h, fun t h => h⟩
  | cons h0 rest ih =>
    intro acc x
    constructor
    · intro hx
      refine (ih (deleteStep acc h0) x).1 ?_
      intro hmem
      exact hx (delete_one_live_sub hmem)
    · intro t ht
      exact (ih (deleteStep acc h0) x).2 t (delete_one_tag_none ht)

theorem delete_fold_purges : ∀ (r : List Nat) (acc : ErrorCode × DB),
    (r.foldl deleteStep acc).1 = .MB_SUCCESS →
    ∀ h ∈ r, h ∉ (r.foldl deleteStep acc).2.live ∧
      ∀ t, tagLookup (r.foldl deleteStep acc).2 t h = none := by
  intro r
  induction r with
  | nil =>
    intro acc _ h hh
    simp at hh
  | cons h0 rest ih =>
    intro acc hs h hh
    rcases List.mem_cons.mp hh with he | hm
    · subst he
      have hstep : (DB.delete_one acc.2 h).1 = .MB_SUCCESS := by
        have hacc := delete_fold_acc rest (deleteStep acc h) hs
        unfold deleteStep at hacc
        by_contra hne
        split at hacc <;> simp_all
      have h1 : h ∉ (deleteStep acc h).2.live := by
        unfold deleteStep
        exact delete_one_success_not_live hstep
      have h2 : ∀ t, tagLookup (deleteStep acc h).2 t h = none := by
        intro t
        unfold deleteStep
        exact delete_one_tag_purged acc.2 h t
      exact ⟨(delete_fold_mono rest (deleteStep acc h) h).1 h1,
        fun t => (delete_fold_mono rest (deleteStep acc h) h).2 t (h2 t)⟩
    · exact ih (deleteStep acc h0) hs h hm

theorem get_entities_with_tag_values_sub {db : DB} {range : List Nat}
    {tags : List (Nat × Option Int)} {intersect : Bool} {h : Nat}
    (hh : h ∈ get_entities_with_tag_values db range tags intersect) :
    h ∈ range := by
  unfold get_entities_with_tag_values at hh
  split at hh
  · exact hh
  · split at hh <;> exact (List.mem_filter.mp hh).1

theorem get_entities_by_type_live {db : DB} {ms : Nat} {type : EntityType}
    {recursive : Bool} {l : List Nat} {h : Nat}
    (hok : DB.get_entities_by_type db ms type recursive = .ok l)
    (hh : h ∈ l) : h ∈ db.live := by
  unfold DB.get_entities_by_type at hok
  split at hok
  · have hl : l = entitiesOfType db type := by
      exact (Except.ok.injEq _ _).mp hok.symm
    rw [hl] at hh
    exact (List.mem_filter.mp hh).1
  · rcases hf : db.sets.find? (fun p => p.1 == ms) with _ | p
    · rw [hf] at hok
      exact absurd hok (by simp)
    · rw [hf] at hok
      have hl : l = p.2.filter (fun h =>
          (TYPE_FROM_HANDLE h == type) && db.live.contains h) := by
        exact (Except.ok.injEq _ _).mp hok.symm
      rw [hl] at hh
      have := (List.mem_filter.mp hh).2
      simp only [Bool.and_eq_true] at this
      have hc := this.2
      simpa using hc

/-- On a fresh (empty) output argument, everything the type-and-tag query
returns is a live entity. -/
theorem get_entities_by_type_and_tag_live {db : DB} {ms : Nat}
    {type : EntityType} {tags : List (Nat × Option Int)} {intersect : Bool}
    {recursive : Bool} {h : Nat}
    (hh : h ∈ (DB.get_entities_by_type_and_tag db ms type tags intersect
      recursive []).2) : h ∈ db.live := by
  unfold DB.get_entities_by_type_and_tag at hh
  split at hh
  · simp at hh
  · rcases hq : DB.get_entities_by_type db ms type recursive with e | tmp0
    · rw [hq] at hh
      simp at hh
    · rw [hq] at hh
      simp only at hh
      split at hh
      · split at hh <;> simp at hh
      · split at hh
        · simp only [List.isEmpty_nil, if_true] at hh
          exact get_entities_by_type_live hq (get_entities_with_tag_values_sub hh)
        · simp only [List.nil_append] at hh
          have := (List.mem_filter.mp hh).1
          exact get_entities_by_type_live hq (get_entities_with_tag_values_sub this)

/-- C1: after a successful `Core::delete_entities` on a range containing `h`,
the tag server's per-entity data for `h` is purged (and the purge step is
applied to the state before the sequence manager's release, independent of
the release outcome), `find(h)` reports entity-not-found, and no subsequent
`get_entities_by_type_and_tag` query returns `h`. -/
theorem delete_entities_purges (db : DB) (r : List Nat) (h : Nat)
    (hmem : h ∈ r) (hsucc : (DB.delete_entities db r).1 = .MB_SUCCESS) :
    DB.find (DB.delete_entities db r).2 h = .MB_ENTITY_NOT_FOUND
    ∧ (∀ t, tagLookup (DB.delete_entities db r).2 t h = none)
    ∧ (∀ db0 : DB, (DB.delete_one db0 h).2.tagStore = tagReset db0.tagStore h)
    ∧ (∀ ms type tags intersect recursive,
        h ∉ (DB.get_entities_by_type_and_tag (DB.delete_entities db r).2
          ms type tags intersect recursive []).2) := by
  have hp := delete_fold_purges r (ErrorCode.MB_SUCCESS, db) hsucc h hmem
  refine ⟨?_, hp.2, ?_, ?_⟩
  · unfold DB.find DB.delete_entities
    simp [hp.1]
  · intro db0
    exact delete_one_tagStore db0 h
  · intro ms type tags intersect recursive hq
    exact hp.1 (get_entities_by_type_and_tag_live hq)

/-- Witness for C1 at a concrete input: a database with two live vertices
(handles 1 and 2), a tag value on handle 1, deleting the range `{1}`. -/
theorem delete_entities_purges_witness :
    ((1 : Nat) ∈ [(1 : Nat)]
      ∧ (DB.delete_entities ⟨[1, 2], [], [(0, [(1, 5)])], []⟩ [1]).1 = .MB_SUCCESS)
    ∧ DB.find (DB.delete_entities ⟨[1, 2], [], [(0, [(1, 5)])], []⟩ [1]).2 1 =
        .MB_ENTITY_NOT_FOUND := by
  refine ⟨⟨by decide, by rfl⟩, ?_⟩
  exact (delete_entities_purges ⟨[1, 2], [], [(0, [(1, 5)])], []⟩ [1] 1
    (by decide) (by rfl)).1

/-- C10: `Core::get_entities_by_type_and_tag` and
`Core::get_number_entities_by_type` called with `recursive = true` and the
entity-set type fail immediately with `MB_TYPE_OUT_OF_RANGE` — for every
database state and meshset handle, so before any set contents or tag storage
are consulted — and leave the in/out range and count arguments unchanged. -/
theorem recursive_entityset_guard (db : DB) (meshset : Nat)
    (tags : List (Nat × Option Int)) (intersect : Bool)
    (entities : List Nat) (num_ent : Nat) :
    DB.get_entities_by_type_and_tag db meshset EntityType.MBENTITYSET tags
      intersect true entities = (.MB_TYPE_OUT_OF_RANGE, entities)
    ∧ DB.get_number_entities_by_type db meshset EntityType.MBENTITYSET true
      num_ent = (.MB_TYPE_OUT_OF_RANGE, num_ent) := by
  constructor
  · unfold DB.get_entities_by_type_and_tag
    simp
  · unfold DB.get_number_entities_by_type
    simp

/-!
`Core::tag_create` (Core.cpp:1805-1847).  `TagServer.cpp` is not in the
snapshot; `add_tag`, `get_handle` and `get_tag_info` are modelled from the
spec (§4.6).
-/

/-- Tag data types (MBTypes.h `MBDataType`). -/
inductive DataType where
  | MB_TYPE_OPAQUE
  | MB_TYPE_INTEGER
  | MB_TYPE_DOUBLE
  | MB_TYPE_BIT
  | MB_TYPE_HANDLE
  deriving DecidableEq

/-- Tag storage classes (MBTypes.h `MBTagType`). -/
inductive TagType where
  | MB_TAG_BIT
  | MB_TAG_SPARSE
  | MB_TAG_DENSE
  | MB_TAG_MESH
  deriving DecidableEq

/-- Marker for variable-length tags. -/
def MB_VARIABLE_LENGTH : Int := -1

/-- §3 TagInfo: the immutable definition of a tag.  The default value is
modelled as an opaque value; the C++ compares defaults bytewise with
`memcmp`, modelled as value equality. -/
structure TagInfo where
  name : String
  size : Int
  storage : TagType
  dataType : DataType
  defaultVal : Option Int
  deriving DecidableEq

/-- Modelled from the spec (§4.6 `add_tag`): fails "already exists" when the
name is taken, leaving the registry unchanged; otherwise registers the
definition and returns its handle (its index in the registry). -/
def add_tag (reg : List TagInfo) (name : String) (size : Int)
    (storage : TagType) (data : DataType) (defv : Option Int) :
    ErrorCode × Option Nat × List TagInfo :=
  if reg.any (fun i => i.name == name) then (.MB_ALREADY_ALLOCATED, none, reg)
  else (.MB_SUCCESS, some reg.length, reg ++ [⟨name, size, storage, data, defv⟩])

/-- Modelled from the spec (§4.6): `TagServer::get_handle(name)` — the index
of the first registered tag with the given name. -/
def get_handle (reg : List TagInfo) (name : String) : Option Nat :=
  match reg with
  | [] => none
  | i :: rest =>
    if i.name == name then some 0 else (get_handle rest name).map (· + 1)

/-- Embedded from `Core::tag_create` (Core.cpp:1805-1847): the
variable-length-with-default guard, the `TagServer::add_tag` call, and the
`use_existing` compatibility check — same size and data type (the storage
class is deliberately not compared), and, when a default value is supplied,
an identical existing default. -/
def tag_create (reg : List TagInfo) (name : String) (size : Int)
    (storage : TagType) (data : DataType) (defv : Option Int)
    (use_existing : Bool) : ErrorCode × Option Nat × List TagInfo :=
  if defv.isSome ∧ size = MB_VARIABLE_LENGTH then
    (.MB_VARIABLE_DATA_LENGTH, none, reg)
  else
    match add_tag reg name size storage data defv with
    | (rval, hout, reg') =>
      if rval = .MB_ALREADY_ALLOCATED ∧ use_existing then
        match get_handle reg name with
        | some idx =>
          match reg[idx]? with
          | some info =>
            if info.size = size ∧ info.dataType = data then
              match defv with
              | none => (.MB_SUCCESS, some idx, reg)
              | some dv =>
                if info.defaultVal = some dv then (.MB_SUCCESS, some idx, reg)
                else (.MB_ALREADY_ALLOCATED, some idx, reg)
            else (.MB_ALREADY_ALLOCATED, some idx, reg)
          | none => (.MB_ALREADY_ALLOCATED, none, reg)
        | none => (.MB_ALREADY_ALLOCATED, none, reg)
      else (rval, hout, reg')

theorem any_of_get_handle : ∀ {reg : List TagInfo} {name : String} {idx : Nat},
    get_handle reg name = some idx →
    reg.any (fun i => i.name == name) = true := by
  intro reg
  induction reg with
  | nil =>
    intro name idx h
    simp [get_handle] at h
  | cons i rest ih =>
    intro name idx h
    unfold get_handle at h
    split at h
    · rename_i hp
      simp [List.any_cons, hp]
    · rcases Option.map_eq_some'.mp h with ⟨j, hj, _⟩
      simp only [List.any_cons, Bool.or_eq_true]
      right
      exact ih hj

/-- C5 counterexample: a registry already holds tag "T" (size 4, integer,
sparse).  Re-requesting the identical definition through `Core::tag_create`
with `use_existing = false` — which is what the public 5-argument overload
always passes (Core.cpp:1796-1803) — fails with `MB_ALREADY_ALLOCATED`
instead of succeeding, refuting the claim as stated. -/
theorem tag_create_identical_fails_counterexample :
    (tag_create [⟨"T", 4, .MB_TAG_SPARSE, .MB_TYPE_INTEGER, none⟩] "T" 4
      .MB_TAG_SPARSE .MB_TYPE_INTEGER none false).1 =
      ErrorCode.MB_ALREADY_ALLOCATED
    ∧ (tag_create [⟨"T", 4, .MB_TAG_SPARSE, .MB_TYPE_INTEGER, none⟩] "T" 4
      .MB_TAG_SPARSE .MB_TYPE_INTEGER none false).1 ≠ ErrorCode.MB_SUCCESS := by
  have h1 : (tag_create [⟨"T", 4, .MB_TAG_SPARSE, .MB_TYPE_INTEGER, none⟩] "T" 4
      .MB_TAG_SPARSE .MB_TYPE_INTEGER none false).1 =
      ErrorCode.MB_ALREADY_ALLOCATED := rfl
  refine ⟨h1, ?_⟩
  rw [h1]
  decide

/-- C5 (amended): when the caller opts into reusing an existing tag
(`use_existing = true`, as readers re-opening a tag from a prior session
do), re-requesting an identical definition — same size and data type, with
a matching default value when one is supplied — succeeds and yields the
existing tag handle, leaving the registry unchanged; a request with an
incompatible definition (different byte size or data type) fails with the
already-exists error for every `use_existing`, also leaving the registry
unchanged. -/
theorem tag_create_compat (reg : List TagInfo) (name : String) (size : Int)
    (storage : TagType) (data : DataType) (defv : Option Int)
    (idx : Nat) (info : TagInfo)
    (hfind : get_handle reg name = some idx)
    (hinfo : reg[idx]? = some info)
    (hvar : size ≠ MB_VARIABLE_LENGTH) :
    ((info.size = size ∧ info.dataType = data ∧
        (defv = none ∨ info.defaultVal = defv)) →
      tag_create reg name size storage data defv true =
        (.MB_SUCCESS, some idx, reg))
    ∧ ((info.size ≠ size ∨ info.dataType ≠ data) → ∀ ue,
      (tag_create reg name size storage data defv ue).1 = .MB_ALREADY_ALLOCATED
      ∧ (tag_create reg name size storage data defv ue).2.2 = reg) := by
  have hany := any_of_get_handle hfind
  constructor
  · rintro ⟨hsz, hdt, hdef⟩
    rcases hd : defv with _ | dv
    · simp [tag_create, add_tag, hany, hfind, hinfo, hsz, hdt, hvar]
    · have hdv : info.defaultVal = some dv := by
        rcases hdef with h1 | h2
        · rw [hd] at h1
          exact absurd h1 (by simp)
        · rw [hd] at h2
          exact h2
      simp [tag_create, add_tag, hany, hfind, hinfo, hsz, hdt, hvar, hdv]
  · intro hbad ue
    have hnc : ¬ (info.size = size ∧ info.dataType = data) := by
      rintro ⟨h1, h2⟩
      rcases hbad with hb | hb
      · exact hb h1
      · exact hb h2
    cases ue
    · constructor <;> simp [tag_create, add_tag, hany, hvar]
    · constructor <;> simp [tag_create, add_tag, hany, hvar, hfind, hinfo, hnc]

/-- Witness for the amended C5 at a concrete input: registry holding tag "T"
(size 4, integer, sparse), identical re-request with `use_existing = true`. -/
theorem tag_create_compat_witness :
    (get_handle [⟨"T", 4, .MB_TAG_SPARSE, .MB_TYPE_INTEGER, none⟩] "T" = some 0
     ∧ ([(⟨"T", 4, .MB_TAG_SPARSE, .MB_TYPE_INTEGER, none⟩ : TagInfo)])[0]? =
        some ⟨"T", 4, .MB_TAG_SPARSE, .MB_TYPE_INTEGER, none⟩
     ∧ (4 : Int) ≠ MB_VARIABLE_LENGTH)
    ∧ tag_create [⟨"T", 4, .MB_TAG_SPARSE, .MB_TYPE_INTEGER, none⟩] "T" 4
        .MB_TAG_SPARSE .MB_TYPE_INTEGER none true =
        (.MB_SUCCESS, some 0, [⟨"T", 4, .MB_TAG_SPARSE, .MB_TYPE_INTEGER, none⟩]) := by
  refine ⟨⟨rfl, rfl, by decide⟩, ?_⟩
  exact (tag_create_compat [⟨"T", 4, .MB_TAG_SPARSE, .MB_TYPE_INTEGER, none⟩]
    "T" 4 .MB_TAG_SPARSE .MB_TYPE_INTEGER none 0
    ⟨"T", 4, .MB_TAG_SPARSE, .MB_TYPE_INTEGER, none⟩ rfl rfl (by decide)).1
    ⟨rfl, rfl, Or.inl rfl⟩

/-!
Tag data access (§4.6 `get_data`/`set_data`).  `TagServer.cpp` and the
storage back-ends (`SparseTagCollection.cpp`, dense arrays inside
`SequenceData`) are not in the snapshot; the uniform get/set contract and
both back-ends are modelled from the spec.
-/

/-- One call of a tag workload against a single fixed-size tag. -/
inductive TagOp where
  | set : Nat → Int → TagOp
  | get : Nat → TagOp
  deriving DecidableEq

/-- Modelled from the spec (§4.6 `get_data`): an entity's stored value, else
the tag's default, else the tag-not-found-on-entity error. -/
def sparse_get_data (store : List (Nat × Int)) (defv : Option Int)
    (h : Nat) : Except ErrorCode Int :=
  match sparseLookup store h with
  | some v => .ok v
  | none =>
    match defv with
    | some d => .ok d
    | none => .error .MB_TAG_NOT_FOUND

theorem sparseLookup_set_self {store : List (Nat × Int)} {h : Nat}
    {v : Int} : sparseLookup (sparseSet store h v) h = some v := by
  simp [sparseSet, sparseLookup, List.find?_cons]

theorem sparseLookup_cons_ne {p : Nat × Int} {rest : List (Nat × Int)}
    {x : Nat} (hne : p.1 ≠ x) :
    sparseLookup (p :: rest) x = sparseLookup rest x := by
  have hc : (p.1 == x) = false := by simp [hne]
  simp only [sparseLookup, List.find?_cons, hc]

theorem sparseLookup_filter_ne {x h : Nat} (hne : x ≠ h) :
    ∀ {m : List (Nat × Int)},
    sparseLookup (m.filter (fun q => q.1 != h)) x = sparseLookup m x := by
  intro m
  induction m with
  | nil => rfl
  | cons p rest ih =>
    by_cases hp : p.1 = h
    · rw [List.filter_cons_of_neg (by simp [hp])]
      rw [ih, sparseLookup_cons_ne (by rw [hp]; exact fun he => hne he.symm)]
    · rw [List.filter_cons_of_pos (by simp [hp])]
      by_cases hpx : p.1 = x
      · simp [sparseLookup, List.find?_cons, hpx]
      · rw [sparseLookup_cons_ne hpx, sparseLookup_cons_ne hpx]
        exact ih

theorem sparseLookup_set_other {store : List (Nat × Int)} {h h' : Nat}
    {v : Int} (hne : h' ≠ h) :
    sparseLookup (sparseSet store h v) h' = sparseLookup store h' := by
  have hc : (((h, v) : Nat × Int).1 == h') = false := by
    simp only [beq_eq_false_iff_ne, ne_eq]
    exact fun he => hne he.symm
  unfold sparseSet
  rw [sparseLookup_cons_ne (by simpa using hc)]
  exact sparseLookup_filter_ne hne

theorem sparseLookup_set_ne {store : List (Nat × Int)} {h h' : Nat}
    {v : Int} (hne : h' ≠ h) (hn : sparseLookup store h = none) :
    sparseLookup (sparseSet store h' v) h = none := by
  rw [sparseLookup_set_other (fun he => hne he.symm)]
  exact hn

/-- Apply the `set_data` calls of a workload to a sparse store. -/
def applySets (ops : List TagOp) (store : List (Nat × Int)) :
    List (Nat × Int) :=
  ops.foldl (fun st op =>
    match op with
    | TagOp.set h v => sparseSet st h v
    | TagOp.get _ => st) store

theorem applySets_not_set {h : Nat} : ∀ (ops : List TagOp)
    (store : List (Nat × Int)),
    (∀ v, TagOp.set h v ∉ ops) → sparseLookup store h = none →
    sparseLookup (applySets ops store) h = none := by
  intro ops
  induction ops with
  | nil =>
    intro st _ hn
    exact hn
  | cons op rest ih =>
    intro st hns hn
    cases op with
    | get h1 =>
      exact ih st (fun v hv => hns v (List.mem_cons_of_mem _ hv)) hn
    | set h1 v1 =>
      have hne : h1 ≠ h := by
        intro he
        subst he
        exact hns v1 (List.mem_cons_self _ _)
      exact ih (sparseSet st h1 v1)
        (fun v hv => hns v (List.mem_cons_of_mem _ hv))
        (sparseLookup_set_ne hne hn)

/-- C6: for a tag with a default value and a live entity on which no value
was ever explicitly set across any workload, `get_data` (through the bulk
entry point `Core::tag_get_data` delegates to, all-or-nothing per call)
returns the default; with no default and no value set it fails with the
tag-not-found-on-entity error. -/
theorem tag_default_get (ops : List TagOp) (live : List Nat) (h : Nat)
    (d : Int) (hlive : h ∈ live) (hnever : ∀ v, TagOp.set h v ∉ ops) :
    tagServer_get_data (applySets ops []) (some d) live [h] = .ok [d]
    ∧ tagServer_get_data (applySets ops []) none live [h] =
        .error .MB_TAG_NOT_FOUND
    ∧ sparse_get_data (applySets ops []) (some d) h = .ok d := by
  have hn := applySets_not_set ops [] hnever rfl
  refine ⟨?_, ?_, ?_⟩
  · simp [tagServer_get_data, hlive, hn]
  · simp [tagServer_get_data, hlive, hn]
  · simp [sparse_get_data, hn]

/-- Witness for C6 at a concrete input: live entities 1 and 2, a workload
that sets a value only on entity 2, reading entity 1. -/
theorem tag_default_get_witness :
    ((1 : Nat) ∈ [(1 : Nat), 2] ∧ ∀ v, TagOp.set 1 v ∉ [TagOp.set 2 9])
    ∧ tagServer_get_data (applySets [TagOp.set 2 9] []) (some 7) [1, 2] [1] =
        .ok [7] := by
  have hnever : ∀ v, TagOp.set 1 v ∉ [TagOp.set 2 9] := by
    intro v hv
    simp at hv
  refine ⟨⟨by decide, hnever⟩, ?_⟩
  exact (tag_default_get [TagOp.set 2 9] [1, 2] 1 7 (by decide) hnever).1

/-- Modelled from the spec (§3 dense back-end): one array slot per handle of
the block `[startH, startH + vals.length)` inside the block's SequenceData;
`none` marks a slot never explicitly set. -/
structure DenseStore where
  startH : Nat
  vals : List (Option Int)

def denseSet (d : DenseStore) (h : Nat) (v : Int) : DenseStore :=
  { d with vals := d.vals.set (h - d.startH) (some v) }

/-- Modelled from the spec (§4.6 `get_data`, dense back-end): direct array
read at the handle's offset; unset slot falls back to the tag default, else
the tag-not-found-on-entity error. -/
def dense_get_data (d : DenseStore) (defv : Option Int) (h : Nat) :
    Except ErrorCode Int :=
  match d.vals.getD (h - d.startH) none with
  | some v => .ok v
  | none =>
    match defv with
    | some d0 => .ok d0
    | none => .error .MB_TAG_NOT_FOUND

/-- Observed results of a workload against the dense back-end. -/
def runDense (defv : Option Int) : DenseStore → List TagOp → List (Except ErrorCode Int)
  | _, [] => []
  | d, TagOp.set h v :: rest => runDense defv (denseSet d h v) rest
  | d, TagOp.get h :: rest => dense_get_data d defv h :: runDense defv d rest

/-- Observed results of a workload against the sparse back-end. -/
def runSparse (defv : Option Int) : List (Nat × Int) → List TagOp →
    List (Except ErrorCode Int)
  | _, [] => []
  | st, TagOp.set h v :: rest => runSparse defv (sparseSet st h v) rest
  | st, TagOp.get h :: rest => sparse_get_data st defv h :: runSparse defv st rest

/-- A call addresses a handle inside the dense block. -/
def opInBlock (startH len : Nat) : TagOp → Prop
  | TagOp.set h _ => startH ≤ h ∧ h < startH + len
  | TagOp.get h => startH ≤ h ∧ h < startH + len

instance (s l : Nat) (op : TagOp) : Decidable (opInBlock s l op) := by
  cases op <;> (simp only [opInBlock]; infer_instance)

theorem denseSet_length (d : DenseStore) (h : Nat) (v : Int) :
    (denseSet d h v).vals.length = d.vals.length := by
  simp [denseSet]

theorem runs_agree (defv : Option Int) : ∀ (ops : List TagOp) (d : DenseStore)
    (st : List (Nat × Int)),
    (∀ op ∈ ops, opInBlock d.startH d.vals.length op) →
    (∀ h, d.startH ≤ h → h < d.startH + d.vals.length →
      d.vals.getD (h - d.startH) none = sparseLookup st h) →
    runDense defv d ops = runSparse defv st ops := by
  intro ops
  induction ops with
  | nil =>
    intro d st _ _
    rfl
  | cons op rest ih =>
    intro d st hin hinv
    cases op with
    | get h =>
      have hb : d.startH ≤ h ∧ h < d.startH + d.vals.length :=
        hin (TagOp.get h) (List.mem_cons_self _ _)
      have hobs : dense_get_data d defv h = sparse_get_data st defv h := by
        unfold dense_get_data sparse_get_data
        rw [hinv h hb.1 hb.2]
      show dense_get_data d defv h :: runDense defv d rest =
        sparse_get_data st defv h :: runSparse defv st rest
      rw [hobs, ih d st (fun o ho => hin o (List.mem_cons_of_mem _ ho)) hinv]
    | set h v =>
      have hb : d.startH ≤ h ∧ h < d.startH + d.vals.length :=
        hin (TagOp.set h v) (List.mem_cons_self _ _)
      show runDense defv (denseSet d h v) rest =
        runSparse defv (sparseSet st h v) rest
      refine ih (denseSet d h v) (sparseSet st h v) ?_ ?_
      · intro o ho
        have := hin o (List.mem_cons_of_mem _ ho)
        simpa [denseSet] using this
      · intro x hx1 hx2
        rw [denseSet_length] at hx2
        simp only [denseSet] at hx1 hx2 ⊢
        by_cases hxh : x = h
        · subst hxh
          rw [sparseLookup_set_self]
          rw [List.getD_eq_getElem?_getD, List.getElem?_set]
          have hlt : x - d.startH < d.vals.length := by omega
          simp [hlt]
        · rw [sparseLookup_set_other hxh]
          rw [List.getD_eq_getElem?_getD, List.getElem?_set]
          have hne2 : ¬ (h - d.startH = x - d.startH) := by omega
          rw [if_neg hne2]
          rw [← List.getD_eq_getElem?_getD]
          exact hinv x hx1 hx2

/-- C7: for a fixed-size tag, running the same sequence of
`set_data`/`get_data` calls against a dense-created tag (array slot per
handle of the block, initially all unset) and against a sparse-created tag
(handle-to-value map, initially empty) yields identical observed values at
every `get_data`: the storage class never changes the get/set semantics. -/
theorem sparse_dense_equivalence (defv : Option Int) (startH len : Nat)
    (ops : List TagOp) (hin : ∀ op ∈ ops, opInBlock startH len op) :
    runDense defv ⟨startH, List.replicate len none⟩ ops =
      runSparse defv [] ops := by
  refine runs_agree defv ops ⟨startH, List.replicate len none⟩ [] ?_ ?_
  · intro op ho
    have := hin op ho
    simpa using this
  · intro h h1 h2
    have h1' : startH ≤ h := h1
    have h2' : h < startH + len := by simpa using h2
    rw [List.getD_eq_getElem?_getD, List.getElem?_replicate]
    have hlt : h - startH < len := by omega
    simp [hlt, sparseLookup]

/-- Witness for C7 at a concrete input: block `[5, 9)`, workload
set 5 := 3, get 5, get 6. -/
theorem sparse_dense_equivalence_witness :
    (∀ op ∈ [TagOp.set 5 3, TagOp.get 5, TagOp.get 6], opInBlock 5 4 op)
    ∧ runDense (some 7) ⟨5, List.replicate 4 none⟩
        [TagOp.set 5 3, TagOp.get 5, TagOp.get 6] =
      runSparse (some 7) [] [TagOp.set 5 3, TagOp.get 5, TagOp.get 6] := by
  refine ⟨by decide, ?_⟩
  exact sparse_dense_equivalence (some 7) 5 4
    [TagOp.set 5 3, TagOp.get 5, TagOp.get 6] (by decide)

/-!
`Core::create_element` (Core.cpp:2022-2036).  The guard against too few
nodes is embedded from Core.cpp; `MBCN::VerticesPerEntity` is an inline over
tables in MBCN.hpp/MBCNArrays.hpp, which are not in the snapshot, and the
SequenceManager allocation path is likewise modelled from the spec (§4.5).
-/

/-- Modelled from the spec (§1, §4.5): the minimum number of vertices for
each element topology (`MBCN::VerticesPerEntity`; for the variable-vertex
topologies the listed value is the topological minimum). -/
def VerticesPerEntity : EntityType → Nat
  | .MBVERTEX => 1
  | .MBEDGE => 2
  | .MBTRI => 3
  | .MBQUAD => 4
  | .MBPOLYGON => 3
  | .MBTET => 4
  | .MBPYRAMID => 5
  | .MBPRISM => 6
  | .MBKNIFE => 7
  | .MBHEX => 8
  | .MBPOLYHEDRON => 4
  | .MBENTITYSET => 0
  | .MBMAXTYPE => 0

/-- The next unused local id of a type (modelled from the spec §4.3/§4.5:
SequenceManager allocation hands out a fresh id within the type's id
space). -/
def nextId (db : DB) (type : EntityType) : Nat :=
  ((db.live.filter (fun h => TYPE_FROM_HANDLE h == type)).map
    ID_FROM_HANDLE).foldr max 0 + 1

/-- Modelled from the spec (§4.5 `create_element` allocation): the
SequenceManager allocates the next free handle of the type; fails with the
id-space-exhausted condition when the id field overflows. -/
def seqman_create_element (db : DB) (type : EntityType)
    (connectivity : List Nat) : Except ErrorCode (Nat × DB) :=
  match CREATE_HANDLE type (nextId db type) with
  | some h => .ok (h,
      { db with live := h :: db.live, conn := (h, connectivity) :: db.conn })
  | none => .error .MB_FAILURE

/-- Embedded from `Core::create_element` (Core.cpp:2022-2036): reject with
failure when `num_nodes` is strictly below the topology's vertex minimum —
before any allocation — otherwise allocate through the sequence manager and
return the new handle. -/
def DB.create_element (db : DB) (type : EntityType)
    (connectivity : List Nat) (num_nodes : Nat) :
    ErrorCode × Option Nat × DB :=
  if num_nodes < VerticesPerEntity type then (.MB_FAILURE, none, db)
  else
    match seqman_create_element db type connectivity with
    | .ok (h, db') => (.MB_SUCCESS, some h, db')
    | .error e => (e, none, db)

theorem le_foldr_max {x : Nat} : ∀ {l : List Nat}, x ∈ l → x ≤ l.foldr max 0 := by
  intro l
  induction l with
  | nil =>
    intro h
    simp at h
  | cons a rest ih =>
    intro h
    rcases List.mem_cons.mp h with he | hm
    · subst he
      exact le_max_left _ _
    · exact le_trans (ih hm) (le_max_right _ _)

/-- The handle the sequence manager would allocate is fresh. -/
theorem nextId_fresh {db : DB} {type : EntityType} {h : Nat}
    (hc : CREATE_HANDLE type (nextId db type) = some h) : h ∉ db.live := by
  intro hmem
  have htype : TYPE_FROM_HANDLE h = type := TYPE_FROM_HANDLE_create hc
  have hid : ID_FROM_HANDLE h = nextId db type := ID_FROM_HANDLE_create hc
  have hfilter : h ∈ db.live.filter (fun x => TYPE_FROM_HANDLE x == type) := by
    rw [List.mem_filter]
    exact ⟨hmem, by simp [htype]⟩
  have hmap : ID_FROM_HANDLE h ∈ (db.live.filter
      (fun x => TYPE_FROM_HANDLE x == type)).map ID_FROM_HANDLE :=
    List.mem_map_of_mem ID_FROM_HANDLE hfilter
  have hle := le_foldr_max hmap
  rw [hid] at hle
  unfold nextId at hle
  omega

/-- C8: `create_element` fails and creates no entity when the node count is
strictly below the topology's vertex minimum; otherwise (with id space
available) the element is allocated through the sequence manager and a fresh
handle of the requested type is returned. -/
theorem create_element_min_nodes (db : DB) (type : EntityType)
    (connectivity : List Nat) (num_nodes : Nat)
    (ht : type ≠ EntityType.MBMAXTYPE)
    (hid : nextId db type ≤ MB_END_ID) :
    (num_nodes < VerticesPerEntity type →
      DB.create_element db type connectivity num_nodes = (.MB_FAILURE, none, db))
    ∧ (VerticesPerEntity type ≤ num_nodes →
      ∃ h db', DB.create_element db type connectivity num_nodes =
          (.MB_SUCCESS, some h, db')
        ∧ h ∉ db.live ∧ TYPE_FROM_HANDLE h = type
        ∧ db'.live = h :: db.live) := by
  constructor
  · intro hlt
    unfold DB.create_element
    rw [if_pos hlt]
  · intro hge
    have hc : CREATE_HANDLE type (nextId db type) =
        some (typeNum type * 2 ^ MB_ID_WIDTH + nextId db type) := by
      unfold CREATE_HANDLE
      simp [ht, hid]
    refine ⟨typeNum type * 2 ^ MB_ID_WIDTH + nextId db type,
      { db with live := (typeNum type * 2 ^ MB_ID_WIDTH + nextId db type) :: db.live,
                conn := (typeNum type * 2 ^ MB_ID_WIDTH + nextId db type,
                  connectivity) :: db.conn }, ?_, ?_, ?_, ?_⟩
    · unfold DB.create_element
      rw [if_neg (by omega)]
      unfold seqman_create_element
      rw [hc]
    · exact nextId_fresh hc
    · exact TYPE_FROM_HANDLE_create hc
    · rfl

/-- Witness for C8 at a concrete input: empty database, tetrahedron with 4
nodes. -/
theorem create_element_min_nodes_witness :
    (EntityType.MBTET ≠ EntityType.MBMAXTYPE
      ∧ nextId ⟨[], [], [], []⟩ EntityType.MBTET ≤ MB_END_ID
      ∧ VerticesPerEntity EntityType.MBTET ≤ 4)
    ∧ ∃ h db', DB.create_element ⟨[], [], [], []⟩ EntityType.MBTET [1, 2, 3, 4] 4 =
        (.MB_SUCCESS, some h, db')
      ∧ h ∉ ([] : List Nat) ∧ TYPE_FROM_HANDLE h = EntityType.MBTET := by
  refine ⟨⟨by decide, by decide, by decide⟩, ?_⟩
  rcases (create_element_min_nodes ⟨[], [], [], []⟩ EntityType.MBTET
    [1, 2, 3, 4] 4 (by decide) (by decide)).2 (by decide) with
    ⟨h, db', heq, hfresh, htype, hlive⟩
  exact ⟨h, db', heq, hfresh, htype⟩

/-!
`SweptElementSeq` (SweptElementSeq.cpp).  The `get_connectivity` overloads,
`set_connectivity` and `get_connectivity_array` are embedded from
SweptElementSeq.cpp; `SweptElementData` (`get_params`,
`get_params_connectivity`, the coordinate transform over the caller's vertex
block) is not in the snapshot and is modelled from the spec (§4.3 structured
mesh). -/

/-- A swept (structured i/j/k) element sequence: the handle origin and the
logical parameter box.  It owns no connectivity array; `vbase` is the handle
origin of the vertex block the coordinate transform maps parameters into
(modelled from the spec: vertex SequenceData supplied by the caller). -/
structure SweptElementSeq where
  start_handle : Nat
  imin : Int
  jmin : Int
  kmin : Int
  imax : Int
  jmax : Int
  kmax : Int
  vbase : Nat

/-- Elements along the logical i direction. -/
def SweptElementSeq.di (s : SweptElementSeq) : Nat := (s.imax - s.imin).toNat

/-- Elements along the logical j direction. -/
def SweptElementSeq.dj (s : SweptElementSeq) : Nat := (s.jmax - s.jmin).toNat

/-- Elements along the logical k direction. -/
def SweptElementSeq.dk (s : SweptElementSeq) : Nat := (s.kmax - s.kmin).toNat

/-- Modelled from the spec (§4.3): `ScdElementData::calc_num_entities` for
the parameter box. -/
def SweptElementSeq.num_elements (s : SweptElementSeq) : Nat :=
  s.di * s.dj * s.dk

/-- Modelled from the spec (§4.3): decode a handle of the sequence into its
logical (i,j,k) parameters; entity-not-found outside the handle block. -/
def SweptElementSeq.get_params (s : SweptElementSeq) (handle : Nat) :
    Except ErrorCode (Int × Int × Int) :=
  if s.start_handle ≤ handle ∧ handle < s.start_handle + s.num_elements
      ∧ 0 < s.di ∧ 0 < s.dj then
    .ok (s.imin + ((handle - s.start_handle) % s.di : Nat),
         s.jmin + (((handle - s.start_handle) / s.di) % s.dj : Nat),
         s.kmin + ((handle - s.start_handle) / (s.di * s.dj) : Nat))
  else .error .MB_ENTITY_NOT_FOUND

/-- Modelled from the spec (§4.3): the coordinate transform mapping a
logical vertex coordinate into the caller's vertex block. -/
def sweptVertex (s : SweptElementSeq) (a b c : Int) : Nat :=
  s.vbase + ((a - s.imin).toNat + (b - s.jmin).toNat * (s.di + 1)
    + (c - s.kmin).toNat * ((s.di + 1) * (s.dj + 1)))

/-- Modelled from the spec (§4.3): connectivity computed algebraically from
the (i,j,k) parameters over the caller's vertex block — the hexahedral
corner vertices of logical cell (i,j,k); nothing is read from a stored
array. -/
def SweptElementSeq.get_params_connectivity (s : SweptElementSeq)
    (i j k : Int) : List Nat :=
  [sweptVertex s i j k, sweptVertex s (i+1) j k,
   sweptVertex s (i+1) (j+1) k, sweptVertex s i (j+1) k,
   sweptVertex s i j (k+1), sweptVertex s (i+1) j (k+1),
   sweptVertex s (i+1) (j+1) (k+1), sweptVertex s i (j+1) (k+1)]

/-- Embedded from `SweptElementSeq::get_connectivity`
(SweptElementSeq.cpp:45-55): decode the handle's (i,j,k) parameters, then
compute the connectivity from them. -/
def SweptElementSeq.get_connectivity (s : SweptElementSeq) (handle : Nat) :
    Except ErrorCode (List Nat) :=
  match s.get_params handle with
  | .ok (i, j, k) => .ok (s.get_params_connectivity i j k)
  | .error e => .error e

/-- Embedded from `SweptElementSeq::get_connectivity` (pointer overload,
SweptElementSeq.cpp:57-76): without caller-provided storage there is no
stored array to point into — null pointer, zero length, `MB_NOT_IMPLEMENTED`. -/
def SweptElementSeq.get_connectivity_ptr (s : SweptElementSeq) (handle : Nat)
    (storage : Bool) : Except ErrorCode (List Nat) :=
  if storage then s.get_connectivity handle
  else .error .MB_NOT_IMPLEMENTED

/-- Embedded from `SweptElementSeq::set_connectivity`
(SweptElementSeq.cpp:78-84): writing connectivity is not supported. -/
def SweptElementSeq.set_connectivity (s : SweptElementSeq) (handle : Nat)
    (connect : List Nat) : ErrorCode :=
  .MB_NOT_IMPLEMENTED

/-- Embedded from `SweptElementSeq::get_connectivity_array`
(SweptElementSeq.cpp:86-87): the sequence owns no raw connectivity array. -/
def SweptElementSeq.get_connectivity_array (s : SweptElementSeq) :
    Option (List Nat) := none

/-- C9: for every handle owned by a swept (structured i/j/k) element
sequence, `get_connectivity` computes the connectivity as a function of the
handle's decoded logical (i,j,k) parameters (handles with equal parameters
get equal connectivity) rather than reading a stored array; the sequence
exposes no raw connectivity array (`get_connectivity_array` yields nothing,
and the pointer overload without caller storage reports not-implemented),
and `set_connectivity` is not supported. -/
theorem swept_connectivity_computed (s : SweptElementSeq) (handle : Nat)
    (i j k : Int) (hp : s.get_params handle = .ok (i, j, k)) :
    s.get_connectivity handle = .ok (s.get_params_connectivity i j k)
    ∧ (∀ h2, s.get_params h2 = s.get_params handle →
        s.get_connectivity h2 = s.get_connectivity handle)
    ∧ s.get_connectivity_array = none
    ∧ (∀ h3 c, s.set_connectivity h3 c = .MB_NOT_IMPLEMENTED)
    ∧ (∀ h4, s.get_connectivity_ptr h4 false = .error .MB_NOT_IMPLEMENTED) := by
  refine ⟨?_, ?_, rfl, fun h3 c => rfl, fun h4 => rfl⟩
  · unfold SweptElementSeq.get_connectivity
    rw [hp]
  · intro h2 he
    unfold SweptElementSeq.get_connectivity
    rw [he]

/-- Witness for C9 at a concrete input: a 2x2x2 swept block starting at
handle 10 over a vertex block starting at handle 100, querying handle 10
(logical cell (0,0,0)). -/
theorem swept_connectivity_computed_witness :
    SweptElementSeq.get_params ⟨10, 0, 0, 0, 2, 2, 2, 100⟩ 10 = .ok (0, 0, 0)
    ∧ SweptElementSeq.get_connectivity ⟨10, 0, 0, 0, 2, 2, 2, 100⟩ 10 =
        .ok (SweptElementSeq.get_params_connectivity
          ⟨10, 0, 0, 0, 2, 2, 2, 100⟩ 0 0 0) := by
  have hp : SweptElementSeq.get_params ⟨10, 0, 0, 0, 2, 2, 2, 100⟩ 10 =
      .ok (0, 0, 0) := rfl
  exact ⟨hp, (swept_connectivity_computed ⟨10, 0, 0, 0, 2, 2, 2, 100⟩
    10 0 0 0 hp).1⟩

end Moab
